import Mathlib

/-!
Verification development for the gift-discovery core: taste aggregation,
adaptive binary selection, vocabulary-filtered query composition, catalogue
ranking and heuristic reranking.

The Python sources are shallowly embedded.  Python floats are modelled by
exact rationals `PyQ` (an integer numerator/denominator pair whose operations
are plain integer arithmetic, hence kernel-computable); every arithmetic
expression of the source is mirrored exactly, so all results are exact where
the source's floating point is approximate.  Square roots (from `np.linalg.norm`)
and `np.exp` do not embed exactly and are passed in as explicit function
parameters; theorems quantify over them, and concrete instantiations pick
functions that agree with the real ones on every input actually used.
-/

-- ===================================================================
-- Exact rational arithmetic standing in for Python floats.
-- Invariant maintained by all operations used: positive denominator.
-- ===================================================================

structure PyQ where
  num : Int
  den : Int
deriving DecidableEq, Repr

namespace PyQ

def ofInt (n : Int) : PyQ := ⟨n, 1⟩

def add (a b : PyQ) : PyQ := ⟨a.num * b.den + b.num * a.den, a.den * b.den⟩

def sub (a b : PyQ) : PyQ := ⟨a.num * b.den - b.num * a.den, a.den * b.den⟩

def mul (a b : PyQ) : PyQ := ⟨a.num * b.num, a.den * b.den⟩

/-- Division; the sign fixup keeps denominators positive. -/
def div (a b : PyQ) : PyQ :=
  if b.num < 0 then ⟨-(a.num * b.den), -(a.den * b.num)⟩ else ⟨a.num * b.den, a.den * b.num⟩

def neg (a : PyQ) : PyQ := ⟨-a.num, a.den⟩

def pabs (a : PyQ) : PyQ := ⟨|a.num|, a.den⟩

/-- Boolean `a ≤ b`, valid when both denominators are positive. -/
def ble (a b : PyQ) : Bool := a.num * b.den ≤ b.num * a.den

/-- Boolean `a < b`, valid when both denominators are positive. -/
def blt (a b : PyQ) : Bool := a.num * b.den < b.num * a.den

/-- Python `max(a, b)`: `a` if `a ≥ b` else `b` (ties keep the first argument). -/
def pymax (a b : PyQ) : PyQ := if ble b a then a else b

/-- Python `min(a, b)`: `a` if `a ≤ b` else `b` (ties keep the first argument). -/
def pymin (a b : PyQ) : PyQ := if ble a b then a else b

/-- Interpretation into the rationals. -/
def toQ (a : PyQ) : ℚ := (a.num : ℚ) / (a.den : ℚ)

end PyQ

-- ===================================================================
-- Generic helpers shared by the embeddings: ASCII lowering, whitespace,
-- order-preserving dedup (Python set/dict iteration in insertion order),
-- a stable sort (Python list.sort is stable; any stable sort agrees),
-- and Python slice semantics l[:k] including negative k.
-- ===================================================================

/-- Python `str.lower()` (ASCII). -/
def pyLower (s : String) : String := ⟨s.data.map Char.toLower⟩

/-- Python whitespace class used by `str.split` / `str.strip` / `\s`. -/
def isPyWs (c : Char) : Bool :=
  c == ' ' || c == '\t' || c == '\n' || c == '\r' || c == '\x0b' || c == '\x0c'

/-- Keep the first occurrence of each element, preserving order. -/
def dedupFirstAux {α : Type} [DecidableEq α] (seen : List α) : List α → List α
  | [] => []
  | x :: rest =>
    if x ∈ seen then dedupFirstAux seen rest else x :: dedupFirstAux (x :: seen) rest

def dedupFirst {α : Type} [DecidableEq α] (l : List α) : List α := dedupFirstAux [] l

/-- Insert `a` before the first element `b` with `le a b` (stable insertion). -/
def insLe {α : Type} (le : α → α → Bool) (a : α) : List α → List α
  | [] => [a]
  | b :: l => if le a b then a :: b :: l else b :: insLe le a l

/-- Stable sort; models Python's stable `list.sort` with the same ordering. -/
def sortLe {α : Type} (le : α → α → Bool) : List α → List α
  | [] => []
  | a :: l => insLe le a (sortLe le l)

/-- Python slice `l[:k]`, including the negative-index semantics. -/
def pyTake {α : Type} (k : Int) (l : List α) : List α :=
  if 0 ≤ k then l.take k.toNat else l.take (l.length - (-k).toNat)

/-- Python `" ".join(ws)` (also used to rebuild word-trimmed strings). -/
def joinWords : List String → String
  | [] => ""
  | [w] => w
  | w :: v :: ws => w ++ " " ++ joinWords (v :: ws)

/-- Python `s.split()` - split on whitespace runs, dropping empty pieces. -/
def splitWs (s : String) : List String :=
  ((s.data.splitOnP isPyWs).filter (fun w => !w.isEmpty)).map (fun w => ⟨w⟩)

/-- Python `", ".join(ws)`-style joins with an arbitrary separator. -/
def joinSep (sep : String) : List String → String
  | [] => ""
  | [w] => w
  | w :: v :: ws => w ++ sep ++ joinSep sep (v :: ws)

-- ===================================================================
-- src/rank_embed.py: the Gift record.
-- `meta` is modelled by its two fields the core reads (`age_fit`,
-- `category`); `vector` is the optional embedding.
-- ===================================================================

structure Gift where
  sku : String
  title : String
  price : PyQ
  tags : List String
  ageFit : List String
  category : List String
  shortDesc : String
  vector : Option (List PyQ)
deriving DecidableEq, Repr

-- ===================================================================
-- src/rerank_llm.py: RerankResult and heuristic_rerank.
-- The per-gift body of the loop (lines 76-108) is factored into named
-- pieces so each can be reasoned about; their composition `scoreGift`
-- is literally the loop body.
-- ===================================================================

structure RerankResult where
  sku : String
  score : PyQ
  ageFit : Bool
  passed : Bool
  reason : String
deriving DecidableEq, Repr

/-- `taste_set = {t.lower() for t in taste_top_tags}` (insertion order). -/
def tasteSetOf (tasteTags : List String) : List String :=
  dedupFirst (tasteTags.map pyLower)

/-- `tag_overlap = taste_set.intersection({t.lower() for t in gift.tags})`. -/
def overlapOf (tasteTags : List String) (g : Gift) : List String :=
  (tasteSetOf tasteTags).filter (fun t => (dedupFirst (g.tags.map pyLower)).contains t)

/-- `overlap_ratio = len(tag_overlap) / max(1, len(taste_set)) if taste_set else 0.5`. -/
def overlapFracOf (tasteTags : List String) (g : Gift) : PyQ :=
  if (tasteSetOf tasteTags).isEmpty then ⟨1, 2⟩
  else PyQ.div (PyQ.ofInt (overlapOf tasteTags g).length)
    (PyQ.ofInt (max 1 ((tasteSetOf tasteTags).length : Int)))

/-- `base = 0.45 + 0.4 * overlap_ratio`. -/
def baseOf (tasteTags : List String) (g : Gift) : PyQ :=
  PyQ.add ⟨45, 100⟩ (PyQ.mul ⟨4, 10⟩ (overlapFracOf tasteTags g))

/-- `out_of_budget = gift.price < min_budget or gift.price > max_budget`. -/
def outOfBudget (lo hi : PyQ) (g : Gift) : Bool :=
  PyQ.blt g.price lo || PyQ.blt hi g.price

/-- `age_fit` of the loop body: true when no age prior, or the gift has no
age metadata, or the two sets intersect. -/
def ageFitOf (agePrior : List String) (g : Gift) : Bool :=
  if (dedupFirst (agePrior.map pyLower)).isEmpty then true
  else
    (dedupFirst (g.ageFit.map pyLower)).isEmpty ||
      (dedupFirst (g.ageFit.map pyLower)).any
        (fun a => (dedupFirst (agePrior.map pyLower)).contains a)

/-- `age_penalty`: 0.2 exactly when a non-empty prior mismatches. -/
def agePenOf (agePrior : List String) (g : Gift) : PyQ :=
  if (dedupFirst (agePrior.map pyLower)).isEmpty then ⟨0, 1⟩
  else if ageFitOf agePrior g then ⟨0, 1⟩ else ⟨2, 10⟩

/-- `score = max(0.0, min(1.0, base - budget_penalty - age_penalty))`. -/
def scoreValOf (tasteTags : List String) (lo hi : PyQ) (agePrior : List String)
    (g : Gift) : PyQ :=
  PyQ.pymax ⟨0, 1⟩ (PyQ.pymin ⟨1, 1⟩
    (PyQ.sub (PyQ.sub (baseOf tasteTags g)
      (if outOfBudget lo hi g then ⟨2, 10⟩ else ⟨0, 1⟩)) (agePenOf agePrior g)))

/-- `reason` string of the loop body.  Python iterates `tag_overlap` (a set)
in unspecified order; the model uses the insertion order of the overlap. -/
def reasonOf (tasteTags : List String) (lo hi : PyQ) (agePrior : List String)
    (g : Gift) : String :=
  let ov := overlapOf tasteTags g
  let p1 := if !ov.isEmpty then "Matches " ++ joinSep ", " (ov.take 2) else "Broad appeal"
  let p2 := if outOfBudget lo hi g then "over budget" else "in budget"
  let parts := [p1, p2] ++
    (if !ageFitOf agePrior g && !(dedupFirst (agePrior.map pyLower)).isEmpty
      then ["age mismatch"] else [])
  let reason := joinSep "; " parts
  if (splitWs reason).length > 18 then joinWords ((splitWs reason).take 18) else reason

/-- One iteration of the `for gift in gifts` loop of `heuristic_rerank`. -/
def scoreGift (tasteTags : List String) (lo hi : PyQ) (agePrior : List String)
    (g : Gift) : RerankResult :=
  { sku := g.sku
    score := scoreValOf tasteTags lo hi agePrior g
    ageFit := ageFitOf agePrior g
    passed := !outOfBudget lo hi g && ageFitOf agePrior g &&
      PyQ.ble ⟨45, 100⟩ (scoreValOf tasteTags lo hi agePrior g)
    reason := reasonOf tasteTags lo hi agePrior g }

/-- `heuristic_rerank` (src/rerank_llm.py lines 61-114). -/
def rerankSorted (gifts : List Gift) (tasteTags : List String) (lo hi : PyQ)
    (agePrior : List String) : List RerankResult :=
  sortLe (fun a b => PyQ.ble b.score a.score)
    (gifts.map (scoreGift tasteTags lo hi agePrior))

def heuristicRerank (gifts : List Gift) (tasteTags : List String) (lo hi : PyQ)
    (agePrior : List String) (keepTop : Int) : List RerankResult :=
  pyTake keepTop
    (if ((rerankSorted gifts tasteTags lo hi agePrior).filter
          (fun r => r.passed)).isEmpty then
      pyTake keepTop (rerankSorted gifts tasteTags lo hi agePrior)
    else (rerankSorted gifts tasteTags lo hi agePrior).filter (fun r => r.passed))

-- ===================================================================
-- Shared numeric vector helpers (np.dot / norm / the `_safe_norm` and
-- `_cosine` of src/rank_embed.py and src/taste.py).  `np.linalg.norm`
-- is sqrt of the sum of squares; sqrt does not embed exactly, so the
-- square-root function is an explicit parameter `sqrtQ`.
-- ===================================================================

def dotQ (a b : List PyQ) : PyQ :=
  (List.zipWith PyQ.mul a b).foldl PyQ.add ⟨0, 1⟩

def sumSq (v : List PyQ) : PyQ := dotQ v v

/-- 1e-9, the epsilon of `_safe_norm` and `_cosine`. -/
def epsQ : PyQ := ⟨1, 1000000000⟩

/-- `_safe_norm(x)`: `x` unchanged when `norm(x) < 1e-9`, else `x / norm(x)`. -/
def safeNorm (sqrtQ : PyQ → PyQ) (x : List PyQ) : List PyQ :=
  if PyQ.blt (sqrtQ (sumSq x)) epsQ then x
  else x.map (fun c => PyQ.div c (sqrtQ (sumSq x)))

/-- `_cosine(a, b) = dot(a, b) / (norm(a) * norm(b) + 1e-9)`. -/
def cosineE (sqrtQ : PyQ → PyQ) (a b : List PyQ) : PyQ :=
  PyQ.div (dotQ a b)
    (PyQ.add (PyQ.mul (sqrtQ (sumSq a)) (sqrtQ (sumSq b))) epsQ)

-- ===================================================================
-- src/rank_embed.py: rank_gifts_by_taste (lines 73-114).
-- The TF-IDF fallback invokes sklearn's TfidfVectorizer, an external
-- library; the whole fallback scoring block (combined texts, fit,
-- row-normalise, dot with the taste pseudo-document) is modelled by
-- the function parameter `tfidf`, which maps the gift list and the
-- taste tags to one score per gift.  The claims proved about this
-- function hold for every such `tfidf`.
-- ===================================================================

/-- Fallback branch: zip gifts with the TF-IDF scores, stable-sort by score
descending, truncate with Python slice semantics. -/
def rankFallback (tfidf : List Gift → List String → List PyQ)
    (gifts : List Gift) (tasteTags : List String) (topK : Int) :
    List (Gift × PyQ) :=
  pyTake topK (sortLe (fun a b => PyQ.ble b.2 a.2) (gifts.zip (tfidf gifts tasteTags)))

/-- `rank_gifts_by_taste`. -/
def rankGiftsByTaste (sqrtQ : PyQ → PyQ)
    (tfidf : List Gift → List String → List PyQ)
    (gifts : List Gift) (tasteVec : Option (List PyQ)) (topK : Int)
    (tasteTags : List String) : List (Gift × PyQ) :=
  if gifts.isEmpty then []
  else
    match tasteVec with
    | some tv =>
      if (!(gifts.filterMap (fun g => g.vector)).isEmpty &&
            ((dedupFirst ((gifts.filterMap (fun g => g.vector)).map List.length)).length == 1 &&
              (dedupFirst ((gifts.filterMap (fun g => g.vector)).map List.length)).contains
                tv.length)) &&
          ((gifts.filterMap (fun g => g.vector)).length == gifts.length) then
        pyTake topK
          (sortLe (fun a b => PyQ.ble b.2 a.2)
            (gifts.map (fun g =>
              (g, cosineE sqrtQ (safeNorm sqrtQ tv) (g.vector.getD [])))))
      else rankFallback tfidf gifts tasteTags topK
    | none => rankFallback tfidf gifts tasteTags topK

-- ===================================================================
-- src/taste.py: Photo, ChoiceEvent, build_taste_vector and
-- select_next_photo_greedy_mmr.  `np.exp` (the recency decay) is the
-- explicit parameter `expQ`; `np.linalg.norm`'s square root is `sqrtQ`.
-- Python dict lookups are modelled by a function into Option.
-- ===================================================================

structure PhotoQ where
  id : String
  vector : List PyQ
  tags : List String
deriving DecidableEq, Repr

structure ChoiceEvent where
  photoId : String
  kind : String
  recencyIndex : Int
deriving DecidableEq, Repr

/-- `CHOICE_WEIGHTS.get(kind, 0.0)`. -/
def choiceWeight (kind : String) : PyQ :=
  if kind = "super_like" then ⟨15, 10⟩
  else if kind = "like" then ⟨1, 1⟩
  else if kind = "dislike" then ⟨-5, 10⟩
  else ⟨0, 1⟩

/-- `_prepare_events`: stable sort ascending by `recency_index` (the
`getattr` default never fires for dataclass instances, which always carry
the field). -/
def prepareEvents (events : List ChoiceEvent) : List ChoiceEvent :=
  sortLe (fun a b => a.recencyIndex ≤ b.recencyIndex) events

/-- `prepared[-1].recency_index` (0 for [] - unreachable there). -/
def lastRecency : List ChoiceEvent → Int
  | [] => 0
  | [e] => e.recencyIndex
  | _ :: e :: rest => lastRecency (e :: rest)

/-- Dimension inference: first event whose photo id resolves. -/
def firstDim (photos : String → Option PhotoQ) : List ChoiceEvent → Option Nat
  | [] => none
  | e :: rest =>
    match photos e.photoId with
    | some ph => some ph.vector.length
    | none => firstDim photos rest

def addVec (a b : List PyQ) : List PyQ := List.zipWith PyQ.add a b

def smulVec (c : PyQ) (v : List PyQ) : List PyQ := v.map (PyQ.mul c)

/-- `build_taste_vector` (src/taste.py lines 69-111).  The exceptions the
source raises are modelled as `Except.error` carrying the exception
message (the spec's `ConfigError`). -/
def buildTasteVector (sqrtQ expQ : PyQ → PyQ) (photos : String → Option PhotoQ)
    (events : List ChoiceEvent) (dim : Option Nat) (recencyTau : PyQ) :
    Except String (List PyQ) :=
  match prepareEvents events with
  | [] =>
    match dim with
    | none => .error "No events supplied and embedding dimension unknown."
    | some d => .ok (List.replicate d ⟨0, 1⟩)
  | e :: rest =>
    match (match dim with | some d => some d | none => firstDim photos (e :: rest)) with
    | none => .error "Could not infer embedding dimension from events."
    | some d =>
      let latest := lastRecency (e :: rest)
      let acc := (e :: rest).foldl (fun acc ev =>
        match photos ev.photoId with
        | none => acc
        | some ph =>
          if choiceWeight ev.kind = ⟨0, 1⟩ then acc
          else
            addVec acc (smulVec
              (PyQ.mul (choiceWeight ev.kind)
                (expQ (PyQ.div
                  (PyQ.neg (PyQ.sub (PyQ.ofInt latest) (PyQ.ofInt ev.recencyIndex)))
                  (PyQ.pymax ⟨1, 1000000⟩ recencyTau))))
              ph.vector)) (List.replicate d ⟨0, 1⟩)
      .ok (safeNorm sqrtQ acc)

/-- `select_next_photo_greedy_mmr` (src/taste.py lines 163-210).  When
`sample_k` is given and the pool is larger, the source draws a random
subsample from a fresh, unseeded `np.random.default_rng()`; that draw is
modelled by the extra input `draw`, which the function only consults in
exactly that case. -/
def selectNextPhoto (sqrtQ : PyQ → PyQ) (photos : String → Option PhotoQ)
    (candidateIds : List String) (tasteVec : List PyQ) (shownIds : List String)
    (lambdaDiversity : PyQ) (recentWindow : Int) (sampleK : Option Nat)
    (draw : List String) : Option String :=
  if candidateIds.isEmpty then none
  else
    (((match sampleK with
      | some k => if candidateIds.length > k then draw else candidateIds
      | none => candidateIds).foldl (fun (best : Option String × PyQ) pid =>
        match photos pid with
        | none => best
        | some ph =>
          let recentVecs :=
            (if 0 < recentWindow then
              shownIds.drop (shownIds.length - recentWindow.toNat)
            else []).filterMap (fun sid => (photos sid).map (fun (p : PhotoQ) => p.vector))
          let score := PyQ.sub
            (PyQ.sub ⟨1, 1⟩ (PyQ.pabs (cosineE sqrtQ tasteVec ph.vector)))
            (match recentVecs with
              | [] => ⟨0, 1⟩
              | v :: vs => PyQ.mul lambdaDiversity
                  ((vs.map (fun rv => cosineE sqrtQ ph.vector rv)).foldl PyQ.pymax
                    (cosineE sqrtQ ph.vector v)))
          if PyQ.blt best.2 score then (some pid, score) else best)
      (none, ⟨-1000000000, 1⟩)).1)

/-- Photo table for the sampling counterexample: three ids, all with the
zero vector (so every cosine the source computes is exactly 0 and the
identity function is exact for every square root taken, namely √0). -/
def mmrPhotoLookup : String → Option PhotoQ := fun s =>
  if s = "a" ∨ s = "b" ∨ s = "c" then some ⟨s, [⟨0, 1⟩, ⟨0, 1⟩], []⟩ else none

-- ===================================================================
-- streamlit_app.py: build_greedy_tree / walk_tree.
-- Python tree values are None, a bare leaf id (int), or a dict with
-- "left"/"right"/"pair_idx"; GTree mirrors the three shapes.  The
-- floating-point cosine of streamlit_app.cosine is the explicit
-- parameter `cosF`, and the optional seed-driven `random.shuffle` of
-- the pivot iteration order is the parameter `orderOf` (the identity
-- when seed is None); the partition invariant holds for every choice
-- of both.
-- ===================================================================

inductive GTree where
  | nil
  | leaf (id : Nat)
  | node (left right : GTree) (pivots : Nat × Nat)
deriving DecidableEq, Repr

/-- The split at pivot pair `(i, j)`: an item goes left iff
`cosine(item, i) > cosine(item, j)`; everything else (ties included)
goes right. -/
def splitPool (cosF : List PyQ → List PyQ → PyQ) (emb : Nat → List PyQ)
    (i j : Nat) (ids : List Nat) : List Nat × List Nat :=
  (ids.filter (fun l => PyQ.blt (cosF (emb l) (emb j)) (cosF (emb l) (emb i))),
   ids.filter (fun l => !(PyQ.blt (cosF (emb l) (emb j)) (cosF (emb l) (emb i)))))

/-- `for i in order: for j in order: if j <= i: continue` - the pivot pairs
in iteration order. -/
def pivotPairs (order : List Nat) : List (Nat × Nat) :=
  List.join (order.map (fun i => (order.filter (fun j => i < j)).map (fun j => (i, j))))

/-- The pivot search: track the best (smallest) balance, stopping as soon as
a perfectly balanced split is found (the source breaks out of both loops). -/
def searchBest (cosF : List PyQ → List PyQ → PyQ) (emb : Nat → List PyQ)
    (ids : List Nat) : Option ((Nat × Nat) × Nat) → List (Nat × Nat) →
    Option ((Nat × Nat) × Nat)
  | best, [] => best
  | best, (i, j) :: rest =>
    let bal := (((splitPool cosF emb i j ids).1.length : Int) -
      ((splitPool cosF emb i j ids).2.length : Int)).natAbs
    if (match best with | none => true | some (_, b) => bal < b) then
      (if bal = 0 then some ((i, j), bal) else searchBest cosF emb ids (some ((i, j), bal)) rest)
    else searchBest cosF emb ids best rest

/-- `leaf_ids[::2]` and `leaf_ids[1::2]` (the fallback even/odd split). -/
def altSplit {α : Type} : List α → List α × List α
  | [] => ([], [])
  | a :: rest => (a :: (altSplit rest).2, (altSplit rest).1)

/-- `build_greedy_tree` with explicit recursion fuel (the source recursion
terminates because every recursive pool is strictly smaller; supplying
`fuel = ids.length` - as `buildGreedyTree` does - makes the fuel branch
unreachable). -/
def buildGreedyAux (cosF : List PyQ → List PyQ → PyQ) (emb : Nat → List PyQ)
    (orderOf : List Nat → List Nat) : Nat → List Nat → GTree
  | _, [] => .nil
  | _, [a] => .leaf a
  | _, [a, b] => .node (.leaf a) (.leaf b) (a, b)
  | 0, _ :: _ :: _ :: _ => .nil
  | fuel + 1, a :: b :: c :: rest =>
    match searchBest cosF emb (a :: b :: c :: rest) none
        (pivotPairs (orderOf (a :: b :: c :: rest))) with
    | none =>
      .node (buildGreedyAux cosF emb orderOf fuel (altSplit (a :: b :: c :: rest)).1)
        (buildGreedyAux cosF emb orderOf fuel (altSplit (a :: b :: c :: rest)).2)
        ((altSplit (a :: b :: c :: rest)).1.headD 0, (altSplit (a :: b :: c :: rest)).2.headD 0)
    | some ((i, j), _) =>
      if (splitPool cosF emb i j (a :: b :: c :: rest)).1.length = 0 ∨
          (splitPool cosF emb i j (a :: b :: c :: rest)).2.length = 0 ∨
          (splitPool cosF emb i j (a :: b :: c :: rest)).1.length = (a :: b :: c :: rest).length ∨
          (splitPool cosF emb i j (a :: b :: c :: rest)).2.length = (a :: b :: c :: rest).length then
        .node (buildGreedyAux cosF emb orderOf fuel (altSplit (a :: b :: c :: rest)).1)
          (buildGreedyAux cosF emb orderOf fuel (altSplit (a :: b :: c :: rest)).2)
          ((altSplit (a :: b :: c :: rest)).1.headD 0, (altSplit (a :: b :: c :: rest)).2.headD 0)
      else
        .node (buildGreedyAux cosF emb orderOf fuel (splitPool cosF emb i j (a :: b :: c :: rest)).1)
          (buildGreedyAux cosF emb orderOf fuel (splitPool cosF emb i j (a :: b :: c :: rest)).2)
          (i, j)

def buildGreedyTree (cosF : List PyQ → List PyQ → PyQ) (emb : Nat → List PyQ)
    (orderOf : List Nat → List Nat) (ids : List Nat) : GTree :=
  buildGreedyAux cosF emb orderOf ids.length ids

/-- In-order leaf ids of a tree. -/
def leavesT : GTree → List Nat
  | .nil => []
  | .leaf a => [a]
  | .node l r _ => leavesT l ++ leavesT r

/-- `walk_tree(tree, bits)`: `0` goes left, anything else right; consuming a
bit at a leaf or at None subscripts a non-dict and raises (modelled as
`Except.error`, the spec's `NavigationError`). -/
def walkTree : GTree → List Int → Except Unit GTree
  | t, [] => .ok t
  | .node l r _, b :: bs => walkTree (if b = 0 then l else r) bs
  | .nil, _ :: _ => .error ()
  | .leaf _, _ :: _ => .error ()

-- ===================================================================
-- Python string primitives shared by query_builder.py / query_composer.py:
-- strip(), the `[^a-z0-9]+` normaliser, and the regex word/space classes.
-- ===================================================================

def pyStripChars (l : List Char) : List Char :=
  ((l.dropWhile isPyWs).reverse.dropWhile isPyWs).reverse

/-- Python `s.strip()`. -/
def pyStrip (s : String) : String := ⟨pyStripChars s.data⟩

/-- `tag.strip().lower()` - the normalisation used by `_canonicalise`. -/
def stripLower (s : String) : String := pyLower (pyStrip s)

/-- `[a-z0-9]`, the word class of `_WORD_RE` (applied to lowered text). -/
def isLowerWord (c : Char) : Bool :=
  ('a' ≤ c && c ≤ 'z') || ('0' ≤ c && c ≤ '9')

/-- `_WORD_RE.sub(" ", ...)`: replace each maximal run of non-`[a-z0-9]`
characters by a single space. -/
def collapseNonWord : List Char → List Char
  | [] => []
  | [c] => if isLowerWord c then [c] else [' ']
  | c1 :: c2 :: rest =>
    if !isLowerWord c1 && !isLowerWord c2 then collapseNonWord (c2 :: rest)
    else (if isLowerWord c1 then c1 else ' ') :: collapseNonWord (c2 :: rest)

/-- `_normalise(text) = _WORD_RE.sub(" ", text.lower()).strip()`. -/
def qNormalise (s : String) : String :=
  pyStrip ⟨collapseNonWord (s.data.map Char.toLower)⟩

/-- The regex word class `\w` (ASCII), for `\b` boundary checks. -/
def isReWord (c : Char) : Bool :=
  ('a' ≤ c && c ≤ 'z') || ('A' ≤ c && c ≤ 'Z') || ('0' ≤ c && c ≤ '9') || c == '_'

-- ===================================================================
-- src/query_builder.py: QueryBuilder._canonicalise.  The model holds the
-- builder's post-constructor state: `allowed` and `forbidden` as loaded
-- (each entry lowercased by the constructor) and the synonym dict
-- `syn_to_canon` as a lookup function.
-- ===================================================================

structure QB where
  allowed : List String
  forbidden : List String
  synToCanon : String → Option String

def canonicalise (qb : QB) (tag : String) : Option String :=
  if stripLower tag = "" ∨ stripLower tag ∈ qb.forbidden then none
  else if stripLower tag ∈ qb.allowed then some (stripLower tag)
  else
    match qb.synToCanon (stripLower tag) with
    | some canonical =>
      if canonical ∈ qb.allowed ∧ canonical ∉ qb.forbidden then some canonical else none
    | none => none

-- ===================================================================
-- src/query_composer.py: the module tables.
-- ===================================================================

def forbiddenTerms : List String :=
  ["girl", "girls", "boy", "boys", "woman", "women", "man", "men",
   "lady", "ladies", "gent", "gents", "adult", "adults", "teen", "teens",
   "kid", "kids", "child", "children", "for him", "for her", "for boys",
   "for girls", "mum", "mom", "dad", "grandma", "grandpa"]

def defaultAllowlist : List String :=
  ["outdoor", "outdoors", "nature", "earthy", "calm", "cozy", "cosy",
   "handmade", "retro", "vintage", "minimalist", "home", "travel", "camping",
   "hiking", "craft", "crafts", "handcrafted", "eco", "sustainable",
   "botanical", "garden", "gardening", "rustic", "wooden", "natural"]

def defaultSynonyms : List (String × List String) :=
  [("nature", ["outdoor", "nature"]), ("outdoors", ["outdoor", "nature"]),
   ("calm", ["calm", "cozy"]), ("relaxed", ["calm", "cozy"]),
   ("relax", ["calm", "cozy"]), ("earth", ["earthy"]), ("earthy", ["earthy"]),
   ("handcrafted", ["handmade"]), ("handcraft", ["handmade"]),
   ("hand-crafted", ["handmade"]), ("craft", ["craft", "handmade"]),
   ("crafts", ["craft", "handmade"]), ("maker", ["craft", "handmade"]),
   ("makers", ["craft", "handmade"]), ("retro", ["retro", "vintage"]),
   ("vintage", ["vintage"]), ("heritage", ["vintage"]),
   ("minimal", ["minimalist"]), ("minimalist", ["minimalist"]),
   ("botanical", ["botanical", "garden"]), ("garden", ["garden", "outdoor"]),
   ("gardening", ["gardening", "outdoor"]), ("rustic", ["rustic", "natural"]),
   ("wooden", ["wooden", "natural"]), ("natural", ["natural", "earthy"]),
   ("eco", ["eco", "sustainable"]), ("sustainable", ["sustainable", "eco"]),
   ("travel", ["travel"]), ("camping", ["camping", "outdoor"]),
   ("hiking", ["hiking", "outdoor"]), ("adventure", ["outdoor", "travel"]),
   ("calming", ["calm", "cozy"]), ("soothing", ["calm", "cozy"]),
   ("serene", ["calm", "cozy"])]

def defaultCategoryMap : List (String × List String) :=
  [("outdoor", ["Outdoors"]), ("outdoors", ["Outdoors"]),
   ("nature", ["Outdoors"]), ("earthy", ["Home", "Outdoors"]),
   ("calm", ["Home"]), ("cozy", ["Home"]), ("cosy", ["Home"]),
   ("handmade", ["Craft Supplies", "Home"]), ("craft", ["Craft Supplies"]),
   ("crafts", ["Craft Supplies"]), ("retro", ["Home"]), ("vintage", ["Home"]),
   ("minimalist", ["Home"]), ("home", ["Home"]), ("travel", ["Travel"]),
   ("camping", ["Outdoors", "Travel"]), ("hiking", ["Outdoors"]),
   ("eco", ["Home"]), ("sustainable", ["Home"]),
   ("botanical", ["Home", "Outdoors"]), ("garden", ["Outdoors"]),
   ("gardening", ["Outdoors"]), ("rustic", ["Home"]), ("wooden", ["Home"]),
   ("natural", ["Home", "Outdoors"])]

-- ===================================================================
-- src/query_composer.py: select_allowed_terms.
-- The Python dicts are built by insertion (later duplicate keys win),
-- modelled by an association list searched from the end.
-- ===================================================================

/-- `{normalise(key): tuple(normalised non-empty values)}` built in source
order; empty value tuples are not inserted. -/
def buildSynMap (src : List (String × List String)) : List (String × List String) :=
  src.foldl (fun acc kv =>
    if ((kv.2.map qNormalise).filter (fun v => v ≠ "")).isEmpty then acc
    else acc ++ [(qNormalise kv.1, (kv.2.map qNormalise).filter (fun v => v ≠ ""))]) []

/-- dict lookup (last insertion wins). -/
def assocGet (m : List (String × String)) (k : String) : Option String :=
  (m.reverse.find? (fun p => p.1 == k)).map (fun p => p.2)

/-- dict lookup for list-valued maps (last insertion wins). -/
def assocGetL (m : List (String × List String)) (k : String) : Option (List String) :=
  (m.reverse.find? (fun p => p.1 == k)).map (fun p => p.2)

/-- Inner candidate loop of the first pass of `select_allowed_terms`; the
Bool component signals the early `return tokens` on reaching `max_terms`. -/
def addCands (allowSet : List String) (maxT : Nat) :
    List String → List String → (List String × Bool)
  | acc, [] => (acc, false)
  | acc, cand :: rest =>
    if qNormalise cand ∈ allowSet ∧ qNormalise cand ∉ acc then
      (if (acc ++ [qNormalise cand]).length ≥ maxT then (acc ++ [qNormalise cand], true)
       else addCands allowSet maxT (acc ++ [qNormalise cand]) rest)
    else addCands allowSet maxT acc rest

/-- First pass over `taste_top`: synonym expansions, word parts, then the
tag itself if not already an expansion. -/
def selectPass1 (allowSet : List String) (synMap : List (String × List String))
    (maxT : Nat) : List String → List String → (List String × Bool)
  | acc, [] => (acc, false)
  | acc, raw :: rest =>
    if qNormalise raw = "" then selectPass1 allowSet synMap maxT acc rest
    else
      match addCands allowSet maxT acc
        ((assocGetL synMap (qNormalise raw)).getD [] ++ splitWs (qNormalise raw) ++
          (if qNormalise raw ∈
              ((assocGetL synMap (qNormalise raw)).getD [] ++ splitWs (qNormalise raw))
            then [] else [qNormalise raw])) with
      | (acc2, true) => (acc2, true)
      | (acc2, false) => selectPass1 allowSet synMap maxT acc2 rest

/-- Inner loop of the second pass (synonym hits only, stopping at
`min_terms`). -/
def addCands2 (allowSet : List String) (minT : Nat) :
    List String → List String → (List String × Bool)
  | acc, [] => (acc, false)
  | acc, cand :: rest =>
    if cand ∈ allowSet ∧ cand ∉ acc then
      (if (acc ++ [cand]).length ≥ minT then (acc ++ [cand], true)
       else addCands2 allowSet minT (acc ++ [cand]) rest)
    else addCands2 allowSet minT acc rest

def selectPass2 (allowSet : List String) (synMap : List (String × List String))
    (minT : Nat) : List String → List String → (List String × Bool)
  | acc, [] => (acc, false)
  | acc, raw :: rest =>
    if qNormalise raw = "" then selectPass2 allowSet synMap minT acc rest
    else
      match addCands2 allowSet minT acc ((assocGetL synMap (qNormalise raw)).getD []) with
      | (acc2, true) => (acc2, true)
      | (acc2, false) => selectPass2 allowSet synMap minT acc2 rest

/-- `select_allowed_terms` (src/query_composer.py lines 162-214). -/
def selectAllowedTerms (allowRaw : List String) (synSrc : List (String × List String))
    (maxT minT : Nat) (tasteTop : List String) : List String :=
  match selectPass1 ((allowRaw.map qNormalise).filter (fun t => t ≠ ""))
      (buildSynMap synSrc) maxT [] tasteTop with
  | (tokens, true) => tokens
  | (tokens, false) =>
    if tokens.length ≥ minT then tokens
    else (selectPass2 ((allowRaw.map qNormalise).filter (fun t => t ≠ ""))
      (buildSynMap synSrc) minT tokens tasteTop).1

-- ===================================================================
-- src/query_composer.py: sanitize_query.
-- A hand-rolled matcher implements the compiled regexes:
--   \b w1 \s+ w2 ... \b  (case-insensitive), gift\s*-?cards?\b,
--   \s+ -> " ", and \s+([.,;:!?]) -> \1, with re.sub's leftmost,
-- non-overlapping semantics.  The scanner's fuel equals the input length;
-- since every match consumes at least one character it never runs out.
-- ===================================================================

/-- Case-insensitive literal match of a lowercase pattern; returns the rest. -/
def matchLitCI : List Char → List Char → Option (List Char)
  | [], s => some s
  | _ :: _, [] => none
  | p :: ps, c :: rest => if Char.toLower c = p then matchLitCI ps rest else none

/-- `\b` after a word character: next char absent or not `\w`. -/
def boundaryOk (s : List Char) : Bool :=
  match s with
  | [] => true
  | c :: _ => !isReWord c

/-- `w1 \s+ w2 \s+ ... \b`: the words of a forbidden term joined by
whitespace runs, ending at a word boundary. -/
def matchWordsSeq : List (List Char) → List Char → Option (List Char)
  | [], s => some s
  | [w], s =>
    match matchLitCI w s with
    | some r => if boundaryOk r then some r else none
    | none => none
  | w :: w2 :: ws, s =>
    match matchLitCI w s with
    | some r =>
      match r with
      | c :: r2 => if isPyWs c then matchWordsSeq (w2 :: ws) (r2.dropWhile isPyWs) else none
      | [] => none
    | none => none

/-- One `re.sub` pass: scan left to right, replacing each match of `m` by
`repl` and continuing after it.  `prevW` tracks whether the previous
character of the original string is a word character (for the leading
`\b`); every pattern used ends in a word character, so after a match the
tracker is true. -/
def scanSub (m : List Char → Option (List Char)) (repl : List Char) :
    Nat → Bool → List Char → List Char
  | 0, _, s => s
  | _, _, [] => []
  | fuel + 1, prevW, c :: rest =>
    match (if prevW then none else m (c :: rest)) with
    | some r => repl ++ scanSub m repl fuel true r
    | none => c :: scanSub m repl fuel (isReWord c) rest

/-- One forbidden-term pass of `sanitize_query`. -/
def applyTermSub (term : String) (s : List Char) : List Char :=
  scanSub (matchWordsSeq ((splitWs term).map String.data)) [' '] s.length false s

/-- The optional dash of `-?`. -/
def dropDash (l : List Char) : List Char :=
  match l with
  | c :: t => if c = '-' then t else c :: t
  | [] => []

/-- `\bgift\s*-?cards?\b` (the starting `\b` is handled by the scanner). -/
def giftCardMatch (s : List Char) : Option (List Char) :=
  match matchLitCI "gift".data s with
  | none => none
  | some r1 =>
    match matchLitCI "card".data (dropDash (r1.dropWhile isPyWs)) with
    | none => none
    | some r4 =>
      match r4 with
      | c :: t =>
        if Char.toLower c = 's' then (if boundaryOk t then some t else none)
        else (if boundaryOk (c :: t) then some (c :: t) else none)
      | [] => some []

def applyGiftCardSub (s : List Char) : List Char :=
  scanSub giftCardMatch [] s.length false s

/-- `re.sub(r"\s+", " ", ...)`. -/
def collapseWsRuns : List Char → List Char
  | [] => []
  | [c] => if isPyWs c then [' '] else [c]
  | c1 :: c2 :: rest =>
    if isPyWs c1 && isPyWs c2 then collapseWsRuns (c2 :: rest)
    else (if isPyWs c1 then ' ' else c1) :: collapseWsRuns (c2 :: rest)

def isPunctCls (c : Char) : Bool :=
  c == '.' || c == ',' || c == ';' || c == ':' || c == '!' || c == '?'

/-- `re.sub(r"\s+([.,;:!?])", r"\1", ...)`. -/
def fixPunct : Nat → List Char → List Char
  | 0, s => s
  | _, [] => []
  | fuel + 1, c :: rest =>
    if isPyWs c then
      match rest.dropWhile isPyWs with
      | p :: rr =>
        if isPunctCls p then p :: fixPunct fuel rr
        else (c :: rest.takeWhile isPyWs) ++ fixPunct fuel (rest.dropWhile isPyWs)
      | [] => (c :: rest.takeWhile isPyWs) ++ fixPunct fuel []
    else c :: fixPunct fuel rest

/-- `sanitize_query` (src/query_composer.py lines 268-286). -/
def sanitizeQuery (q : String) : String :=
  if q = "" then ""
  else
    ⟨fixPunct
      (pyStripChars (collapseWsRuns (applyGiftCardSub
        ((sortLe (fun a b => b.data.length ≤ a.data.length) forbiddenTerms).foldl
          (fun s term => applyTermSub term s) q.data)))).length
      (pyStripChars (collapseWsRuns (applyGiftCardSub
        ((sortLe (fun a b => b.data.length ≤ a.data.length) forbiddenTerms).foldl
          (fun s term => applyTermSub term s) q.data))))⟩

-- ===================================================================
-- src/query_composer.py: compose_query_from_tags.
-- ===================================================================

structure QueryPlan where
  query : String
  tokens : List String
  categories : List String
deriving DecidableEq, Repr

/-- `_dedupe_preserve` of query_composer: key = `item.lower().strip()`;
empty keys and repeats are skipped, originals are kept. -/
def composerDedupeAux (seen : List String) : List String → List String
  | [] => []
  | item :: rest =>
    if pyStrip (pyLower item) = "" ∨ pyStrip (pyLower item) ∈ seen then
      composerDedupeAux seen rest
    else item :: composerDedupeAux (pyStrip (pyLower item) :: seen) rest

def composerDedupe (l : List String) : List String := composerDedupeAux [] l

/-- `{normalise(key): tuple(str(v) for v in values if str(v).strip())}`. -/
def buildCatMap (src : List (String × List String)) : List (String × List String) :=
  src.foldl (fun acc kv =>
    if (kv.2.filter (fun v => pyStrip v ≠ "")).isEmpty then acc
    else acc ++ [(qNormalise kv.1, kv.2.filter (fun v => pyStrip v ≠ ""))]) []

/-- Category accumulation: for each token, append unseen categories. -/
def collectCats (catMap : List (String × List String)) (tokens : List String) :
    List String :=
  tokens.foldl (fun cats token =>
    ((assocGetL catMap (qNormalise token)).getD []).foldl
      (fun cats c => if c ∈ cats then cats else cats ++ [c]) cats) []

/-- `compose_query_from_tags` (src/query_composer.py lines 226-265). -/
def composeQueryFromTags (tasteTop allowRaw : List String)
    (synSrc catSrc : List (String × List String)) (suffix : List String)
    (maxT minT : Nat) : QueryPlan :=
  { query := sanitizeQuery (joinWords
      (composerDedupe (selectAllowedTerms allowRaw synSrc maxT minT tasteTop ++ suffix)))
    tokens := selectAllowedTerms allowRaw synSrc maxT minT tasteTop
    categories := collectCats (buildCatMap catSrc)
      (selectAllowedTerms allowRaw synSrc maxT minT tasteTop) }

/-- The call with all defaults: `compose_query_from_tags(taste_top)`. -/
def composeDefault (tasteTop : List String) : QueryPlan :=
  composeQueryFromTags tasteTop defaultAllowlist defaultSynonyms defaultCategoryMap
    ["gift", "ideas"] 4 2

-- ===================================================================
-- Vocabulary used by the safety proofs for C1: the emitted queries are
-- joins of words from `safeWords`; `checkTerms` are the single-word
-- forbidden terms together with "for" (the first word of every
-- multi-word forbidden term) and "card" (forced by any gift-card
-- regex match).
-- ===================================================================

/-- A word fit for emitted queries: non-empty lowercase ASCII letters
(in particular fixed by `Char.toLower` and free of whitespace/punctuation). -/
def goodWord (w : String) : Bool :=
  !w.data.isEmpty && w.data.all (fun c => ('a' ≤ c && c ≤ 'z') && (Char.toLower c == c))

def checkTerms : List String :=
  ["girl", "girls", "boy", "boys", "woman", "women", "man", "men",
   "lady", "ladies", "gent", "gents", "adult", "adults", "teen", "teens",
   "kid", "kids", "child", "children", "mum", "mom", "dad", "grandma",
   "grandpa", "for", "card"]

/-- Every word an emitted default query can contain: the normalised
allow-list plus the suffix words. -/
def safeWords : List String :=
  (defaultAllowlist.map qNormalise).filter (fun t => t ≠ "") ++ ["gift", "ideas"]

def firstWordStr (term : String) : String := (splitWs term).headD ""

-- ===================================================================
-- THEOREMS START BELOW THE DEFINITION SECTIONS
-- ===================================================================

-- ------------------------------------------------------------------
-- Bridge lemmas: PyQ operations agree with rational arithmetic as long
-- as denominators are positive (every operation used preserves this).
-- ------------------------------------------------------------------

namespace PyQ

theorem toQ_ofInt (n : Int) : (ofInt n).toQ = (n : ℚ) := by
  simp [ofInt, toQ]

theorem toQ_add {a b : PyQ} (ha : 0 < a.den) (hb : 0 < b.den) :
    (add a b).toQ = a.toQ + b.toQ := by
  have ha' : (a.den : ℚ) ≠ 0 := by exact_mod_cast ha.ne'
  have hb' : (b.den : ℚ) ≠ 0 := by exact_mod_cast hb.ne'
  simp only [add, toQ]
  push_cast
  field_simp

theorem toQ_sub {a b : PyQ} (ha : 0 < a.den) (hb : 0 < b.den) :
    (sub a b).toQ = a.toQ - b.toQ := by
  have ha' : (a.den : ℚ) ≠ 0 := by exact_mod_cast ha.ne'
  have hb' : (b.den : ℚ) ≠ 0 := by exact_mod_cast hb.ne'
  simp only [sub, toQ]
  push_cast
  field_simp
  ring

theorem toQ_mul {a b : PyQ} (ha : 0 < a.den) (hb : 0 < b.den) :
    (mul a b).toQ = a.toQ * b.toQ := by
  have ha' : (a.den : ℚ) ≠ 0 := by exact_mod_cast ha.ne'
  have hb' : (b.den : ℚ) ≠ 0 := by exact_mod_cast hb.ne'
  simp only [mul, toQ]
  rw [Int.cast_mul, Int.cast_mul, div_mul_div_comm]

theorem toQ_div {a b : PyQ} (ha : 0 < a.den) (hb : 0 < b.den) (hbn : 0 < b.num) :
    (div a b).toQ = a.toQ / b.toQ := by
  have ha' : (a.den : ℚ) ≠ 0 := by exact_mod_cast ha.ne'
  have hb' : (b.den : ℚ) ≠ 0 := by exact_mod_cast hb.ne'
  have hbn' : (b.num : ℚ) ≠ 0 := by exact_mod_cast hbn.ne'
  simp only [div, toQ, if_neg (not_lt.mpr hbn.le)]
  push_cast
  field_simp

theorem ble_iff {a b : PyQ} (ha : 0 < a.den) (hb : 0 < b.den) :
    ble a b = true ↔ a.toQ ≤ b.toQ := by
  have ha' : (0 : ℚ) < (a.den : ℚ) := by exact_mod_cast ha
  have hb' : (0 : ℚ) < (b.den : ℚ) := by exact_mod_cast hb
  simp only [ble, decide_eq_true_eq, toQ]
  rw [div_le_div_iff ha' hb']
  exact_mod_cast Iff.rfl

theorem blt_iff {a b : PyQ} (ha : 0 < a.den) (hb : 0 < b.den) :
    blt a b = true ↔ a.toQ < b.toQ := by
  have ha' : (0 : ℚ) < (a.den : ℚ) := by exact_mod_cast ha
  have hb' : (0 : ℚ) < (b.den : ℚ) := by exact_mod_cast hb
  simp only [blt, decide_eq_true_eq, toQ]
  rw [div_lt_div_iff ha' hb']
  exact_mod_cast Iff.rfl

theorem toQ_pymax {a b : PyQ} (ha : 0 < a.den) (hb : 0 < b.den) :
    (pymax a b).toQ = max a.toQ b.toQ := by
  unfold pymax
  by_cases h : ble b a = true
  · rw [if_pos h, max_eq_left ((ble_iff hb ha).mp h)]
  · rw [if_neg h]
    have : ¬ b.toQ ≤ a.toQ := fun hc => h ((ble_iff hb ha).mpr hc)
    rw [max_eq_right (le_of_not_le this)]

theorem toQ_pymin {a b : PyQ} (ha : 0 < a.den) (hb : 0 < b.den) :
    (pymin a b).toQ = min a.toQ b.toQ := by
  unfold pymin
  by_cases h : ble a b = true
  · rw [if_pos h, min_eq_left ((ble_iff ha hb).mp h)]
  · rw [if_neg h]
    have : ¬ a.toQ ≤ b.toQ := fun hc => h ((ble_iff ha hb).mpr hc)
    rw [min_eq_right (le_of_not_le this)]

theorem add_den_pos {a b : PyQ} (ha : 0 < a.den) (hb : 0 < b.den) :
    0 < (add a b).den := mul_pos ha hb

theorem sub_den_pos {a b : PyQ} (ha : 0 < a.den) (hb : 0 < b.den) :
    0 < (sub a b).den := mul_pos ha hb

theorem mul_den_pos {a b : PyQ} (ha : 0 < a.den) (hb : 0 < b.den) :
    0 < (mul a b).den := mul_pos ha hb

theorem div_den_pos {a b : PyQ} (ha : 0 < a.den) (hbn : 0 < b.num) :
    0 < (div a b).den := by
  simp only [div, if_neg (not_lt.mpr hbn.le)]
  exact mul_pos ha hbn

theorem pymax_den_pos {a b : PyQ} (ha : 0 < a.den) (hb : 0 < b.den) :
    0 < (pymax a b).den := by
  unfold pymax
  split <;> assumption

theorem pymin_den_pos {a b : PyQ} (ha : 0 < a.den) (hb : 0 < b.den) :
    0 < (pymin a b).den := by
  unfold pymin
  split <;> assumption

end PyQ

-- ------------------------------------------------------------------
-- Lemmas on the stable sort and Python slicing.
-- ------------------------------------------------------------------

theorem insLe_perm {α : Type} (le : α → α → Bool) (a : α) (l : List α) :
    (insLe le a l).Perm (a :: l) := by
  induction l with
  | nil => exact List.Perm.refl _
  | cons b l ih =>
    simp only [insLe]
    split
    · exact List.Perm.refl _
    · exact (ih.cons b).trans (List.Perm.swap a b l)

theorem sortLe_perm {α : Type} (le : α → α → Bool) (l : List α) :
    (sortLe le l).Perm l := by
  induction l with
  | nil => exact List.Perm.refl _
  | cons a l ih => exact (insLe_perm le a (sortLe le l)).trans (ih.cons a)

theorem mem_sortLe {α : Type} {le : α → α → Bool} {l : List α} {x : α} :
    x ∈ sortLe le l ↔ x ∈ l := (sortLe_perm le l).mem_iff

theorem sortLe_ne_nil {α : Type} {le : α → α → Bool} {l : List α} (h : l ≠ []) :
    sortLe le l ≠ [] := by
  intro hc
  have := (sortLe_perm le l).length_eq
  rw [hc] at this
  exact h (List.eq_nil_of_length_eq_zero this.symm)

theorem pyTake_subset {α : Type} (k : Int) (l : List α) : pyTake k l ⊆ l := by
  unfold pyTake
  split <;> exact (List.take_sublist _ _).subset

theorem pyTake_ne_nil {α : Type} {k : Int} {l : List α} (hk : 1 ≤ k) (hl : l ≠ []) :
    pyTake k l ≠ [] := by
  unfold pyTake
  rw [if_pos (le_trans (by norm_num) hk)]
  intro hc
  rcases List.take_eq_nil_iff.mp hc with h | h
  · omega
  · exact hl h

-- ------------------------------------------------------------------
-- C4 / C10 / C5: heuristic_rerank.
-- ------------------------------------------------------------------

/-- C4: for every non-empty list of candidate gifts and every
`keep_top ≥ 1`, `heuristic_rerank` returns a non-empty list, even when no
item passes the pass criteria; and when no item passes, every returned
item carries `passed = False`. -/
theorem heuristicRerank_nonempty (gifts : List Gift) (tasteTags : List String)
    (lo hi : PyQ) (agePrior : List String) (keepTop : Int)
    (hg : gifts ≠ []) (hk : 1 ≤ keepTop) :
    heuristicRerank gifts tasteTags lo hi agePrior keepTop ≠ [] ∧
    ((∀ g ∈ gifts, (scoreGift tasteTags lo hi agePrior g).passed = false) →
      ∀ r ∈ heuristicRerank gifts tasteTags lo hi agePrior keepTop,
        r.passed = false) := by
  have hsortedne : rerankSorted gifts tasteTags lo hi agePrior ≠ [] := by
    apply sortLe_ne_nil
    intro hc
    exact hg (List.map_eq_nil_iff.mp hc)
  have hmem : ∀ r ∈ rerankSorted gifts tasteTags lo hi agePrior,
      ∃ g ∈ gifts, r = scoreGift tasteTags lo hi agePrior g := by
    intro r hr
    have : r ∈ gifts.map (scoreGift tasteTags lo hi agePrior) := mem_sortLe.mp hr
    rcases List.mem_map.mp this with ⟨g, hgmem, hgr⟩
    exact ⟨g, hgmem, hgr.symm⟩
  constructor
  · unfold heuristicRerank
    split
    · exact pyTake_ne_nil hk (pyTake_ne_nil hk hsortedne)
    · next hne =>
      exact pyTake_ne_nil hk (fun hc => hne (by rw [hc]; rfl))
  · intro hall r hr
    have hsortfalse : ∀ s ∈ rerankSorted gifts tasteTags lo hi agePrior,
        s.passed = false := by
      intro s hs
      rcases hmem s hs with ⟨g, hgmem, hgr⟩
      rw [hgr]
      exact hall g hgmem
    unfold heuristicRerank at hr
    revert hr
    split
    · intro hr
      exact hsortfalse r (pyTake_subset _ _ (pyTake_subset _ _ hr))
    · intro hr
      exact hsortfalse r (List.mem_filter.mp (pyTake_subset _ _ hr)).1

/-- C4 witness: a single over-budget gift with `keep_top = 1` still yields a
non-empty result, flagged `passed = false`. -/
theorem heuristicRerank_nonempty_witness :
    ([(⟨"s1", "t", ⟨500, 1⟩, [], [], [], "", none⟩ : Gift)] ≠ []) ∧
    ((1 : Int) ≤ 1) ∧
    (heuristicRerank [⟨"s1", "t", ⟨500, 1⟩, [], [], [], "", none⟩] ["x"] ⟨10, 1⟩ ⟨20, 1⟩ [] 1 ≠ [] ∧
      ((∀ g ∈ [(⟨"s1", "t", ⟨500, 1⟩, [], [], [], "", none⟩ : Gift)],
          (scoreGift ["x"] ⟨10, 1⟩ ⟨20, 1⟩ [] g).passed = false) →
        ∀ r ∈ heuristicRerank [⟨"s1", "t", ⟨500, 1⟩, [], [], [], "", none⟩] ["x"] ⟨10, 1⟩ ⟨20, 1⟩ [] 1,
          r.passed = false)) :=
  ⟨by decide, by decide,
    heuristicRerank_nonempty _ ["x"] ⟨10, 1⟩ ⟨20, 1⟩ [] 1 (by decide) (by decide)⟩

/-- C10: whenever at least one gift passes all constraints, the result is the
passing items only (sorted, truncated to `keep_top`), and every element of
the returned list has `passed = true`. -/
theorem heuristicRerank_passing (gifts : List Gift) (tasteTags : List String)
    (lo hi : PyQ) (agePrior : List String) (keepTop : Int)
    (h : ∃ g ∈ gifts, (scoreGift tasteTags lo hi agePrior g).passed = true) :
    heuristicRerank gifts tasteTags lo hi agePrior keepTop =
      pyTake keepTop
        ((rerankSorted gifts tasteTags lo hi agePrior).filter
          (fun r => r.passed)) ∧
    (∀ r ∈ heuristicRerank gifts tasteTags lo hi agePrior keepTop,
      r.passed = true) := by
  rcases h with ⟨g, hgmem, hgpass⟩
  have hin : scoreGift tasteTags lo hi agePrior g ∈
      (rerankSorted gifts tasteTags lo hi agePrior).filter (fun r => r.passed) := by
    apply List.mem_filter.mpr
    exact ⟨mem_sortLe.mpr (List.mem_map.mpr ⟨g, hgmem, rfl⟩), hgpass⟩
  have hne : ¬ ((rerankSorted gifts tasteTags lo hi agePrior).filter
      (fun r => r.passed)).isEmpty = true := by
    intro hc
    rw [List.isEmpty_iff] at hc
    rw [hc] at hin
    exact List.not_mem_nil _ hin
  have heq : heuristicRerank gifts tasteTags lo hi agePrior keepTop =
      pyTake keepTop
        ((rerankSorted gifts tasteTags lo hi agePrior).filter (fun r => r.passed)) := by
    unfold heuristicRerank
    rw [if_neg hne]
  refine ⟨heq, ?_⟩
  intro r hr
  rw [heq] at hr
  exact (List.mem_filter.mp (pyTake_subset _ _ hr)).2

/-- C10 witness: one in-budget matching gift among two; only it is returned,
with `passed = true`. -/
theorem heuristicRerank_passing_witness :
    (∃ g ∈ [(⟨"ok", "t", ⟨15, 1⟩, ["x"], [], [], "", none⟩ : Gift),
            (⟨"bad", "t", ⟨500, 1⟩, [], [], [], "", none⟩ : Gift)],
        (scoreGift ["x"] ⟨10, 1⟩ ⟨20, 1⟩ [] g).passed = true) ∧
    (heuristicRerank [⟨"ok", "t", ⟨15, 1⟩, ["x"], [], [], "", none⟩,
        ⟨"bad", "t", ⟨500, 1⟩, [], [], [], "", none⟩] ["x"] ⟨10, 1⟩ ⟨20, 1⟩ [] 6 =
      pyTake 6
        ((rerankSorted [⟨"ok", "t", ⟨15, 1⟩, ["x"], [], [], "", none⟩,
            ⟨"bad", "t", ⟨500, 1⟩, [], [], [], "", none⟩] ["x"] ⟨10, 1⟩ ⟨20, 1⟩ []).filter
          (fun r => r.passed)) ∧
      ∀ r ∈ heuristicRerank [⟨"ok", "t", ⟨15, 1⟩, ["x"], [], [], "", none⟩,
          ⟨"bad", "t", ⟨500, 1⟩, [], [], [], "", none⟩] ["x"] ⟨10, 1⟩ ⟨20, 1⟩ [] 6,
        r.passed = true) :=
  ⟨⟨_, List.mem_cons_self _ _, by decide⟩,
    heuristicRerank_passing _ ["x"] ⟨10, 1⟩ ⟨20, 1⟩ [] 6
      ⟨_, List.mem_cons_self _ _, by decide⟩⟩

-- ------------------------------------------------------------------
-- C5: the budget penalty separates otherwise-identical gifts.
-- ------------------------------------------------------------------

theorem overlapFracOf_den_pos (t : List String) (g : Gift) :
    0 < (overlapFracOf t g).den := by
  unfold overlapFracOf
  split
  · norm_num
  · apply PyQ.div_den_pos
    · norm_num [PyQ.ofInt]
    · show (0 : ℤ) < (PyQ.ofInt (max 1 _)).num
      simp only [PyQ.ofInt]
      exact lt_of_lt_of_le one_pos (le_max_left _ _)

theorem overlapFracOf_bounds (t : List String) (g : Gift) :
    0 ≤ (overlapFracOf t g).toQ ∧ (overlapFracOf t g).toQ ≤ 1 := by
  unfold overlapFracOf
  split
  · norm_num [PyQ.toQ]
  · next hne =>
    have hmax : (0 : ℤ) < max 1 ((tasteSetOf t).length : ℤ) :=
      lt_of_lt_of_le one_pos (le_max_left _ _)
    rw [PyQ.toQ_div (by norm_num [PyQ.ofInt]) (by norm_num [PyQ.ofInt])
      (by simpa [PyQ.ofInt] using hmax)]
    rw [PyQ.toQ_ofInt, PyQ.toQ_ofInt]
    have hmax' : (0 : ℚ) < ((max 1 ((tasteSetOf t).length : ℤ) : ℤ) : ℚ) := by
      exact_mod_cast hmax
    constructor
    · apply div_nonneg _ hmax'.le
      exact_mod_cast Int.ofNat_nonneg _
    · rw [div_le_one hmax']
      have h1 : ((overlapOf t g).length : ℤ) ≤ ((tasteSetOf t).length : ℤ) := by
        exact_mod_cast List.length_filter_le _ _
      have h3 : ((overlapOf t g).length : ℤ) ≤ max 1 ((tasteSetOf t).length : ℤ) :=
        le_trans h1 (le_max_right _ _)
      exact_mod_cast h3

theorem baseOf_den_pos (t : List String) (g : Gift) : 0 < (baseOf t g).den :=
  PyQ.add_den_pos (by norm_num) (PyQ.mul_den_pos (by norm_num) (overlapFracOf_den_pos t g))

theorem toQ_baseOf (t : List String) (g : Gift) :
    (baseOf t g).toQ = 45/100 + 4/10 * (overlapFracOf t g).toQ := by
  unfold baseOf
  rw [PyQ.toQ_add (by norm_num) (PyQ.mul_den_pos (by norm_num) (overlapFracOf_den_pos t g)),
    PyQ.toQ_mul (by norm_num) (overlapFracOf_den_pos t g)]
  norm_num [PyQ.toQ]

theorem baseOf_bounds (t : List String) (g : Gift) :
    9/20 ≤ (baseOf t g).toQ ∧ (baseOf t g).toQ ≤ 17/20 := by
  have hb := overlapFracOf_bounds t g
  rw [toQ_baseOf]
  constructor <;> [linarith [hb.1]; linarith [hb.2]]

theorem agePenOf_cases (a : List String) (g : Gift) :
    agePenOf a g = ⟨0, 1⟩ ∨ agePenOf a g = ⟨2, 10⟩ := by
  unfold agePenOf
  split
  · exact Or.inl rfl
  · split
    · exact Or.inl rfl
    · exact Or.inr rfl

theorem agePenOf_den_pos (a : List String) (g : Gift) : 0 < (agePenOf a g).den := by
  rcases agePenOf_cases a g with h | h <;> rw [h] <;> norm_num

/-- C5: inside `heuristic_rerank`, for two gifts identical except for price
(same tags and same age metadata), where one price lies inside the budget
range and the other outside it, the out-of-budget gift's clamped score is at
least 0.15 lower (in fact exactly 0.2 lower).  Denominator-positivity
hypotheses state that the rational representations are well formed. -/
theorem scoreGift_budget_gap (tasteTags : List String) (lo hi : PyQ)
    (agePrior : List String) (gIn gOut : Gift)
    (hlo : 0 < lo.den) (hhi : 0 < hi.den)
    (hpIn : 0 < gIn.price.den) (hpOut : 0 < gOut.price.den)
    (htags : gIn.tags = gOut.tags) (hage : gIn.ageFit = gOut.ageFit)
    (hin1 : lo.toQ ≤ gIn.price.toQ) (hin2 : gIn.price.toQ ≤ hi.toQ)
    (hout : gOut.price.toQ < lo.toQ ∨ hi.toQ < gOut.price.toQ) :
    ((scoreGift tasteTags lo hi agePrior gOut).score).toQ + 3/20 ≤
      ((scoreGift tasteTags lo hi agePrior gIn).score).toQ := by
  have hoobIn : outOfBudget lo hi gIn = false := by
    unfold outOfBudget
    have e1 : PyQ.blt gIn.price lo = false := by
      rw [Bool.eq_false_iff]
      intro hc
      exact absurd ((PyQ.blt_iff hpIn hlo).mp hc) (not_lt.mpr hin1)
    have e2 : PyQ.blt hi gIn.price = false := by
      rw [Bool.eq_false_iff]
      intro hc
      exact absurd ((PyQ.blt_iff hhi hpIn).mp hc) (not_lt.mpr hin2)
    rw [e1, e2]
    rfl
  have hoobOut : outOfBudget lo hi gOut = true := by
    unfold outOfBudget
    rcases hout with h | h
    · rw [(PyQ.blt_iff hpOut hlo).mpr h]
      rfl
    · rw [(PyQ.blt_iff hhi hpOut).mpr h]
      simp
  have hbeq : baseOf tasteTags gOut = baseOf tasteTags gIn := by
    simp [baseOf, overlapFracOf, overlapOf, htags]
  have hapeq : agePenOf agePrior gOut = agePenOf agePrior gIn := by
    simp [agePenOf, ageFitOf, hage]
  have hbden := baseOf_den_pos tasteTags gIn
  have hapden := agePenOf_den_pos agePrior gIn
  -- interpret the in-budget score
  have hs1In : 0 < (PyQ.sub (baseOf tasteTags gIn) ⟨0, 1⟩).den :=
    PyQ.sub_den_pos hbden (by norm_num)
  have hs2In : 0 < (PyQ.sub (PyQ.sub (baseOf tasteTags gIn) ⟨0, 1⟩)
      (agePenOf agePrior gIn)).den := PyQ.sub_den_pos hs1In hapden
  have hminIn : 0 < (PyQ.pymin ⟨1, 1⟩ (PyQ.sub (PyQ.sub (baseOf tasteTags gIn) ⟨0, 1⟩)
      (agePenOf agePrior gIn))).den := PyQ.pymin_den_pos (by norm_num) hs2In
  have hSIn : ((scoreGift tasteTags lo hi agePrior gIn).score).toQ =
      max 0 (min 1 ((baseOf tasteTags gIn).toQ - 0 - (agePenOf agePrior gIn).toQ)) := by
    show (scoreValOf tasteTags lo hi agePrior gIn).toQ = _
    unfold scoreValOf
    rw [hoobIn]
    simp only [Bool.false_eq_true, if_false]
    rw [PyQ.toQ_pymax (by norm_num) hminIn, PyQ.toQ_pymin (by norm_num) hs2In,
      PyQ.toQ_sub hs1In hapden, PyQ.toQ_sub hbden (by norm_num)]
    norm_num [PyQ.toQ]
  -- interpret the out-of-budget score
  have hs1Out : 0 < (PyQ.sub (baseOf tasteTags gIn) ⟨2, 10⟩).den :=
    PyQ.sub_den_pos hbden (by norm_num)
  have hs2Out : 0 < (PyQ.sub (PyQ.sub (baseOf tasteTags gIn) ⟨2, 10⟩)
      (agePenOf agePrior gIn)).den := PyQ.sub_den_pos hs1Out hapden
  have hminOut : 0 < (PyQ.pymin ⟨1, 1⟩ (PyQ.sub (PyQ.sub (baseOf tasteTags gIn) ⟨2, 10⟩)
      (agePenOf agePrior gIn))).den := PyQ.pymin_den_pos (by norm_num) hs2Out
  have hSOut : ((scoreGift tasteTags lo hi agePrior gOut).score).toQ =
      max 0 (min 1 ((baseOf tasteTags gIn).toQ - 1/5 - (agePenOf agePrior gIn).toQ)) := by
    show (scoreValOf tasteTags lo hi agePrior gOut).toQ = _
    unfold scoreValOf
    rw [hoobOut]
    simp only [if_true]
    rw [hbeq, hapeq]
    rw [PyQ.toQ_pymax (by norm_num) hminOut, PyQ.toQ_pymin (by norm_num) hs2Out,
      PyQ.toQ_sub hs1Out hapden, PyQ.toQ_sub hbden (by norm_num)]
    norm_num [PyQ.toQ]
  have hBb := baseOf_bounds tasteTags gIn
  have hA : (agePenOf agePrior gIn).toQ = 0 ∨ (agePenOf agePrior gIn).toQ = 1/5 := by
    rcases agePenOf_cases agePrior gIn with h | h <;> rw [h] <;> norm_num [PyQ.toQ]
  rw [hSIn, hSOut]
  rcases hA with hA | hA <;> rw [hA] <;>
    rw [min_eq_right (by linarith [hBb.2]), max_eq_right (by linarith [hBb.1]),
      min_eq_right (by linarith [hBb.2]), max_eq_right (by linarith [hBb.1])] <;>
    linarith

/-- C5 witness: identical gifts except price 50 (inside budget 30-60) versus
price 80 (outside); the theorem applies and the scores differ by ≥ 0.15. -/
theorem scoreGift_budget_gap_witness :
    ((0 : ℤ) < (⟨30, 1⟩ : PyQ).den) ∧
    (PyQ.toQ ⟨30, 1⟩ ≤ PyQ.toQ ⟨50, 1⟩ ∧ PyQ.toQ ⟨50, 1⟩ ≤ PyQ.toQ ⟨60, 1⟩) ∧
    (PyQ.toQ ⟨60, 1⟩ < PyQ.toQ ⟨80, 1⟩) ∧
    ((scoreGift ["cozy"] ⟨30, 1⟩ ⟨60, 1⟩ []
        ⟨"out", "Premium Throw", ⟨80, 1⟩, ["cozy"], [], [], "", none⟩).score).toQ + 3/20 ≤
      ((scoreGift ["cozy"] ⟨30, 1⟩ ⟨60, 1⟩ []
        ⟨"mid", "Cozy Throw", ⟨50, 1⟩, ["cozy"], [], [], "", none⟩).score).toQ :=
  ⟨by norm_num, ⟨by norm_num [PyQ.toQ], by norm_num [PyQ.toQ]⟩, by norm_num [PyQ.toQ],
    scoreGift_budget_gap ["cozy"] ⟨30, 1⟩ ⟨60, 1⟩ []
      ⟨"mid", "Cozy Throw", ⟨50, 1⟩, ["cozy"], [], [], "", none⟩
      ⟨"out", "Premium Throw", ⟨80, 1⟩, ["cozy"], [], [], "", none⟩
      (by norm_num) (by norm_num) (by norm_num) (by norm_num) rfl rfl
      (by norm_num [PyQ.toQ]) (by norm_num [PyQ.toQ])
      (Or.inr (by norm_num [PyQ.toQ]))⟩

-- ------------------------------------------------------------------
-- C6: truncation semantics of rank_gifts_by_taste.
-- ------------------------------------------------------------------

theorem pyTake_zero {α : Type} (l : List α) : pyTake 0 l = [] := by
  simp [pyTake]

/-- C6 (amended): for every gift list, taste input and TF-IDF fallback,
`rank_gifts_by_taste` with `top_k = 0` returns the empty list.  (The original
claim asserted this for every `top_k ≤ 0`; the counterexample below shows a
negative `top_k` instead drops items from the end, per Python slicing.) -/
theorem rankGiftsByTaste_topK_zero (sqrtQ : PyQ → PyQ)
    (tfidf : List Gift → List String → List PyQ)
    (gifts : List Gift) (tasteVec : Option (List PyQ)) (tasteTags : List String) :
    rankGiftsByTaste sqrtQ tfidf gifts tasteVec 0 tasteTags = [] := by
  unfold rankGiftsByTaste rankFallback
  split
  · rfl
  · split
    · split
      · exact pyTake_zero _
      · exact pyTake_zero _
    · exact pyTake_zero _

/-- C6 counterexample: with two gifts (embedding path, exact arithmetic:
all vectors zero, so every norm is 0 and `sqrt` is exact on the inputs used)
and `top_k = -1`, the result is non-empty - Python's `results[:-1]` drops the
last element instead of returning `[]`, contradicting "`top_k ≤ 0` returns an
empty list". -/
theorem rankGiftsByTaste_neg_topK_counterexample :
    rankGiftsByTaste (fun q => q) (fun _ _ => [])
      [⟨"a", "t", ⟨20, 1⟩, [], [], [], "", some [⟨0, 1⟩, ⟨0, 1⟩]⟩,
       ⟨"b", "t", ⟨20, 1⟩, [], [], [], "", some [⟨0, 1⟩, ⟨0, 1⟩]⟩]
      (some [⟨0, 1⟩, ⟨0, 1⟩]) (-1) [] ≠ [] := by decide

-- ------------------------------------------------------------------
-- C7: undecidable embedding dimension fails the taste build.
-- ------------------------------------------------------------------

theorem firstDim_none (photos : String → Option PhotoQ) (l : List ChoiceEvent)
    (h : ∀ e ∈ l, photos e.photoId = none) : firstDim photos l = none := by
  induction l with
  | nil => rfl
  | cons e rest ih =>
    unfold firstDim
    rw [h e (List.mem_cons_self _ _)]
    exact ih (fun x hx => h x (List.mem_cons_of_mem _ hx))

/-- C7: with `dim` omitted and no event's photo id resolving in the lookup
(including the no-events case), `build_taste_vector` raises (modelled as
`Except.error`, the spec's `ConfigError`); it does not return a vector. -/
theorem buildTasteVector_dim_error (sqrtQ expQ : PyQ → PyQ)
    (photos : String → Option PhotoQ) (events : List ChoiceEvent)
    (recencyTau : PyQ)
    (h : ∀ ev ∈ events, photos ev.photoId = none) :
    ∃ msg, buildTasteVector sqrtQ expQ photos events none recencyTau =
      Except.error msg := by
  have hprep : ∀ ev ∈ prepareEvents events, photos ev.photoId = none :=
    fun ev hev => h ev (mem_sortLe.mp hev)
  unfold buildTasteVector
  rcases hq : prepareEvents events with _ | ⟨e, rest⟩
  · exact ⟨_, rfl⟩
  · have hfd : firstDim photos (e :: rest) = none := by
      apply firstDim_none
      intro x hx
      exact hprep x (by rw [hq]; exact hx)
    simp only [hq, hfd]
    exact ⟨_, rfl⟩

/-- C7 witness: one event whose photo id does not resolve; the build fails
with the dimension-inference error. -/
theorem buildTasteVector_dim_error_witness :
    (∀ ev ∈ [(⟨"p1", "like", 0⟩ : ChoiceEvent)],
      (fun (_ : String) => (none : Option PhotoQ)) ev.photoId = none) ∧
    (∃ msg, buildTasteVector (fun q => q) (fun q => q) (fun _ => none)
      [⟨"p1", "like", 0⟩] none ⟨8, 1⟩ = Except.error msg) ∧
    buildTasteVector (fun q => q) (fun q => q) (fun _ => none)
      [⟨"p1", "like", 0⟩] none ⟨8, 1⟩ =
        Except.error "Could not infer embedding dimension from events." :=
  ⟨fun ev _ => rfl,
    buildTasteVector_dim_error (fun q => q) (fun q => q) (fun _ => none)
      [⟨"p1", "like", 0⟩] ⟨8, 1⟩ (fun ev _ => rfl), rfl⟩

-- ------------------------------------------------------------------
-- C2: determinism of the six core operations.
-- ------------------------------------------------------------------

/-- C2 counterexample: `select_next_photo_greedy_mmr` with `sample_k = 2`
over a 3-candidate pool consults the unseeded-RNG draw; two legitimate
draws (both size-2, duplicate-free subsets of the pool) yield different
outputs, so next-item selection is not a function of its declared inputs.
All vectors are zero, so every cosine is exactly 0 and `fun q => q` is
exact for every square root taken (√0). -/
theorem selectNextPhoto_sampling_counterexample :
    (["a", "b"] ⊆ ["a", "b", "c"] ∧ ["b", "c"] ⊆ ["a", "b", "c"] ∧
      List.Nodup ["a", "b"] ∧ List.Nodup ["b", "c"] ∧
      (["a", "b"] : List String).length = 2 ∧ (["b", "c"] : List String).length = 2) ∧
    selectNextPhoto (fun q => q) mmrPhotoLookup ["a", "b", "c"] [⟨0, 1⟩, ⟨0, 1⟩] []
        ⟨1, 4⟩ 5 (some 2) ["a", "b"] ≠
      selectNextPhoto (fun q => q) mmrPhotoLookup ["a", "b", "c"] [⟨0, 1⟩, ⟨0, 1⟩] []
        ⟨1, 4⟩ 5 (some 2) ["b", "c"] :=
  ⟨⟨by decide, by decide, by decide, by decide, rfl, rfl⟩, by decide⟩

/-- C2 (amended): every core operation is embedded as a pure function of its
inputs, and next-item selection in particular is independent of the RNG draw
whenever `sample_k` is omitted or the candidate pool fits within it; only
when `sample_k` is set and the pool is strictly larger does the draw (and
hence the unseeded RNG) influence the result. -/
theorem selectNextPhoto_deterministic_without_sampling
    (sqrtQ : PyQ → PyQ) (photos : String → Option PhotoQ)
    (candidateIds : List String) (tasteVec : List PyQ) (shownIds : List String)
    (lambdaDiversity : PyQ) (recentWindow : Int) (d1 d2 : List String) :
    selectNextPhoto sqrtQ photos candidateIds tasteVec shownIds lambdaDiversity
        recentWindow none d1 =
      selectNextPhoto sqrtQ photos candidateIds tasteVec shownIds lambdaDiversity
        recentWindow none d2 ∧
    (∀ k : Nat, candidateIds.length ≤ k →
      selectNextPhoto sqrtQ photos candidateIds tasteVec shownIds lambdaDiversity
          recentWindow (some k) d1 =
        selectNextPhoto sqrtQ photos candidateIds tasteVec shownIds lambdaDiversity
          recentWindow (some k) d2) := by
  constructor
  · rfl
  · intro k hk
    have h : ¬ (candidateIds.length > k) := not_lt.mpr hk
    simp only [selectNextPhoto, if_neg h]

/-- C2 witness for the amended statement: a pool of one candidate with
`sample_k = 3` ignores the draw. -/
theorem selectNextPhoto_deterministic_without_sampling_witness :
    ((["a"] : List String).length ≤ 3) ∧
    selectNextPhoto (fun q => q) mmrPhotoLookup ["a"] [⟨0, 1⟩, ⟨0, 1⟩] [] ⟨1, 4⟩ 5
        (some 3) ["b"] =
      selectNextPhoto (fun q => q) mmrPhotoLookup ["a"] [⟨0, 1⟩, ⟨0, 1⟩] [] ⟨1, 4⟩ 5
        (some 3) ["c"] :=
  ⟨by decide,
    (selectNextPhoto_deterministic_without_sampling (fun q => q) mmrPhotoLookup
      ["a"] [⟨0, 1⟩, ⟨0, 1⟩] [] ⟨1, 4⟩ 5 ["b"] ["c"]).2 3 (by decide)⟩

-- ------------------------------------------------------------------
-- C3: the tree's leaves are exactly the input pool.
-- ------------------------------------------------------------------

theorem altSplit_append_perm {α : Type} (l : List α) :
    ((altSplit l).1 ++ (altSplit l).2).Perm l := by
  induction l with
  | nil => simp [altSplit]
  | cons a rest ih =>
    simp only [altSplit]
    rw [List.cons_append]
    exact ((List.perm_append_comm).trans ih).cons a

theorem altSplit_length {α : Type} (l : List α) :
    (altSplit l).1.length = (l.length + 1) / 2 ∧
    (altSplit l).2.length = l.length / 2 := by
  induction l with
  | nil => simp [altSplit]
  | cons a rest ih =>
    simp only [altSplit, List.length_cons]
    constructor
    · rw [ih.2]
      omega
    · rw [ih.1]

theorem buildGreedyAux_leaves_perm (cosF : List PyQ → List PyQ → PyQ)
    (emb : Nat → List PyQ) (orderOf : List Nat → List Nat) :
    ∀ (fuel : Nat) (ids : List Nat), ids.length ≤ fuel + 2 →
    (leavesT (buildGreedyAux cosF emb orderOf fuel ids)).Perm ids := by
  intro fuel
  induction fuel with
  | zero =>
    intro ids hlen
    match ids with
    | [] => exact List.Perm.refl _
    | [a] => exact List.Perm.refl _
    | [a, b] => exact List.Perm.refl _
    | a :: b :: c :: rest => simp at hlen
  | succ fuel ih =>
    intro ids hlen
    match ids with
    | [] => exact List.Perm.refl _
    | [a] => exact List.Perm.refl _
    | [a, b] => exact List.Perm.refl _
    | a :: b :: c :: rest =>
      have hn : (a :: b :: c :: rest).length = rest.length + 3 := by simp
      have hfall : ∀ p : Nat × Nat,
          (leavesT (GTree.node
            (buildGreedyAux cosF emb orderOf fuel (altSplit (a :: b :: c :: rest)).1)
            (buildGreedyAux cosF emb orderOf fuel (altSplit (a :: b :: c :: rest)).2)
            p)).Perm (a :: b :: c :: rest) := by
        intro p
        have hl := altSplit_length (a :: b :: c :: rest)
        have h1 : (altSplit (a :: b :: c :: rest)).1.length ≤ fuel + 2 := by
          rw [hl.1, hn]
          rw [hn] at hlen
          omega
        have h2 : (altSplit (a :: b :: c :: rest)).2.length ≤ fuel + 2 := by
          rw [hl.2, hn]
          rw [hn] at hlen
          omega
        simp only [leavesT]
        exact ((ih _ h1).append (ih _ h2)).trans (altSplit_append_perm _)
      have hsplit : ∀ i j : Nat,
          (splitPool cosF emb i j (a :: b :: c :: rest)).1.length ≠ 0 →
          (splitPool cosF emb i j (a :: b :: c :: rest)).2.length ≠ 0 →
          (leavesT (GTree.node
            (buildGreedyAux cosF emb orderOf fuel (splitPool cosF emb i j (a :: b :: c :: rest)).1)
            (buildGreedyAux cosF emb orderOf fuel (splitPool cosF emb i j (a :: b :: c :: rest)).2)
            (i, j))).Perm (a :: b :: c :: rest) := by
        intro i j hL hR
        have hperm : ((splitPool cosF emb i j (a :: b :: c :: rest)).1 ++
            (splitPool cosF emb i j (a :: b :: c :: rest)).2).Perm
              (a :: b :: c :: rest) := List.filter_append_perm _ _
        have hlensum : (splitPool cosF emb i j (a :: b :: c :: rest)).1.length +
            (splitPool cosF emb i j (a :: b :: c :: rest)).2.length =
              (a :: b :: c :: rest).length := by
          have := hperm.length_eq
          simpa using this
        have h1 : (splitPool cosF emb i j (a :: b :: c :: rest)).1.length ≤ fuel + 2 := by
          rw [hn] at hlensum hlen
          omega
        have h2 : (splitPool cosF emb i j (a :: b :: c :: rest)).2.length ≤ fuel + 2 := by
          rw [hn] at hlensum hlen
          omega
        simp only [leavesT]
        exact ((ih _ h1).append (ih _ h2)).trans hperm
      rcases hsb : searchBest cosF emb (a :: b :: c :: rest) none
          (pivotPairs (orderOf (a :: b :: c :: rest))) with _ | ⟨⟨i, j⟩, bal⟩
      · simp only [buildGreedyAux, hsb]
        exact hfall _
      · simp only [buildGreedyAux, hsb]
        split
        · exact hfall _
        · next hguard =>
          push_neg at hguard
          exact hsplit i j hguard.1 hguard.2.1

/-- C3: for every pool of at least three items with pairwise-distinct
embedding vectors, `build_greedy_tree` yields a tree whose leaves are exactly
the input ids, each exactly once - for every floating-point cosine `cosF`
and every pivot iteration order `orderOf` (hence for any seed), including
when the degenerate-split fallback to the alternating even/odd assignment
is taken. -/
theorem buildGreedyTree_leaves (cosF : List PyQ → List PyQ → PyQ)
    (emb : Nat → List PyQ) (orderOf : List Nat → List Nat) (ids : List Nat)
    (h3 : 3 ≤ ids.length) (hnd : ids.Nodup)
    (hdist : ∀ a ∈ ids, ∀ b ∈ ids, emb a = emb b → a = b) :
    (leavesT (buildGreedyTree cosF emb orderOf ids)).Perm ids ∧
    (leavesT (buildGreedyTree cosF emb orderOf ids)).Nodup := by
  have hperm := buildGreedyAux_leaves_perm cosF emb orderOf ids.length ids (by omega)
  exact ⟨hperm, (hperm.nodup_iff).mpr hnd⟩

/-- C3 witness: three items with distinct unit/diagonal vectors under the
exact dot-product similarity. -/
theorem buildGreedyTree_leaves_witness :
    ((3 : Nat) ≤ ([0, 1, 2] : List Nat).length) ∧
    ([0, 1, 2] : List Nat).Nodup ∧
    (∀ a ∈ ([0, 1, 2] : List Nat), ∀ b ∈ ([0, 1, 2] : List Nat),
      (fun n => if n = 0 then [(⟨1, 1⟩ : PyQ), ⟨0, 1⟩]
        else if n = 1 then [⟨0, 1⟩, ⟨1, 1⟩] else [⟨1, 1⟩, ⟨1, 1⟩]) a =
      (fun n => if n = 0 then [(⟨1, 1⟩ : PyQ), ⟨0, 1⟩]
        else if n = 1 then [⟨0, 1⟩, ⟨1, 1⟩] else [⟨1, 1⟩, ⟨1, 1⟩]) b → a = b) ∧
    ((leavesT (buildGreedyTree dotQ
        (fun n => if n = 0 then [(⟨1, 1⟩ : PyQ), ⟨0, 1⟩]
          else if n = 1 then [⟨0, 1⟩, ⟨1, 1⟩] else [⟨1, 1⟩, ⟨1, 1⟩])
        (fun l => l) [0, 1, 2])).Perm [0, 1, 2] ∧
      (leavesT (buildGreedyTree dotQ
        (fun n => if n = 0 then [(⟨1, 1⟩ : PyQ), ⟨0, 1⟩]
          else if n = 1 then [⟨0, 1⟩, ⟨1, 1⟩] else [⟨1, 1⟩, ⟨1, 1⟩])
        (fun l => l) [0, 1, 2])).Nodup) :=
  ⟨by decide, by decide, by decide,
    buildGreedyTree_leaves dotQ _ (fun l => l) [0, 1, 2] (by decide) (by decide)
      (by decide)⟩

-- ------------------------------------------------------------------
-- C8: walk_tree semantics.
-- ------------------------------------------------------------------

theorem walkTree_error_iff : ∀ (bits : List Int) (t : GTree),
    walkTree t bits = .error () ↔
    ∃ pre b post, bits = pre ++ b :: post ∧
      (walkTree t pre = .ok .nil ∨ ∃ i, walkTree t pre = .ok (.leaf i)) := by
  intro bits
  induction bits with
  | nil =>
    intro t
    constructor
    · intro h
      exact absurd h (by simp [walkTree])
    · rintro ⟨pre, b, post, habs, _⟩
      exact absurd habs (by simp)
  | cons b bs ih =>
    intro t
    cases t with
    | nil =>
      constructor
      · intro _
        exact ⟨[], b, bs, rfl, Or.inl rfl⟩
      · intro _
        rfl
    | leaf i =>
      constructor
      · intro _
        exact ⟨[], b, bs, rfl, Or.inr ⟨i, rfl⟩⟩
      · intro _
        rfl
    | node l r p =>
      have hstep : walkTree (.node l r p) (b :: bs) =
          walkTree (if b = 0 then l else r) bs := rfl
      rw [hstep, ih]
      constructor
      · rintro ⟨pre, b2, post, hb, hw⟩
        exact ⟨b :: pre, b2, post, by rw [hb, List.cons_append], hw⟩
      · rintro ⟨pre, b2, post, hb, hw⟩
        cases pre with
        | nil =>
          rcases hw with hw | ⟨i, hw⟩ <;> simp [walkTree] at hw
        | cons q pre2 =>
          injection hb with h1 h2
          subst h1
          exact ⟨pre2, b2, post, h2, hw⟩

/-- C8: `walk_tree` is the deterministic traversal taking bit 0 to the left
child and bit 1 to the right child of an internal node, returning the node
reached when the bits are exhausted; and it fails (the raised error is
modelled as `Except.error`, the spec's `NavigationError`) exactly when some
bit is consumed at a non-internal node - i.e. the bit sequence outruns the
depth of the path it traverses. -/
theorem walkTree_spec :
    (∀ t : GTree, walkTree t [] = .ok t) ∧
    (∀ (l r : GTree) (p : Nat × Nat) (bs : List Int),
      walkTree (.node l r p) (0 :: bs) = walkTree l bs) ∧
    (∀ (l r : GTree) (p : Nat × Nat) (bs : List Int),
      walkTree (.node l r p) (1 :: bs) = walkTree r bs) ∧
    (∀ (t : GTree) (bits : List Int),
      walkTree t bits = .error () ↔
      ∃ pre b post, bits = pre ++ b :: post ∧
        (walkTree t pre = .ok .nil ∨ ∃ i, walkTree t pre = .ok (.leaf i))) := by
  refine ⟨fun t => by cases t <;> rfl, fun l r p bs => rfl, fun l r p bs => ?_,
    fun t bits => walkTree_error_iff bits t⟩
  show walkTree (if (1 : Int) = 0 then l else r) bs = walkTree r bs
  norm_num

-- ------------------------------------------------------------------
-- C9: canonicalisation is idempotent and lands in the safe vocabulary.
-- ------------------------------------------------------------------

/-- C9: a non-None output of `_canonicalise` is always an allowed,
non-forbidden token, and canonicalising it again returns it unchanged.
The hypotheses say the manifest's allowed tokens are normal forms
(fixed by strip+lower and non-empty), true of any real manifest. -/
theorem canonicalise_idempotent (qb : QB) (tag c : String)
    (hnorm : ∀ t ∈ qb.allowed, stripLower t = t)
    (hne : "" ∉ qb.allowed)
    (h : canonicalise qb tag = some c) :
    c ∈ qb.allowed ∧ c ∉ qb.forbidden ∧ canonicalise qb c = some c := by
  unfold canonicalise at h
  split at h
  · exact absurd h (by simp)
  · next hgate =>
    push_neg at hgate
    split at h
    · next hall =>
      injection h with hc
      subst hc
      refine ⟨hall, hgate.2, ?_⟩
      unfold canonicalise
      rw [hnorm _ hall]
      rw [if_neg (by push_neg; exact hgate)]
      rw [if_pos hall]
    · next hnall =>
      rcases hsyn : qb.synToCanon (stripLower tag) with _ | canonical
      · simp only [hsyn] at h
        exact absurd h (by simp)
      · simp only [hsyn] at h
        split at h
        · next hin =>
          have hc : canonical = c := by injection h
          subst hc
          refine ⟨hin.1, hin.2, ?_⟩
          unfold canonicalise
          rw [hnorm _ hin.1]
          have hcne : canonical ≠ "" := fun hcc => hne (hcc ▸ hin.1)
          rw [if_neg (by push_neg; exact ⟨hcne, hin.2⟩)]
          rw [if_pos hin.1]
        · exact absurd h (by simp)

/-- C9 witness: the synonym "Snug " canonicalises to "cozy", which is
allowed, not forbidden, and a fixed point of canonicalisation. -/
theorem canonicalise_idempotent_witness :
    (∀ t ∈ ["outdoor", "retro", "cozy"], stripLower t = t) ∧
    ("" ∉ ["outdoor", "retro", "cozy"]) ∧
    (canonicalise ⟨["outdoor", "retro", "cozy"], ["girl", "boy", "adult"],
        fun t => if t = "cosy" ∨ t = "snug" then some "cozy" else none⟩ "Snug " =
      some "cozy") ∧
    ("cozy" ∈ ["outdoor", "retro", "cozy"] ∧ "cozy" ∉ ["girl", "boy", "adult"] ∧
      canonicalise ⟨["outdoor", "retro", "cozy"], ["girl", "boy", "adult"],
        fun t => if t = "cosy" ∨ t = "snug" then some "cozy" else none⟩ "cozy" =
        some "cozy") :=
  ⟨by decide, by decide, by decide,
    canonicalise_idempotent
      ⟨["outdoor", "retro", "cozy"], ["girl", "boy", "adult"],
        fun t => if t = "cosy" ∨ t = "snug" then some "cozy" else none⟩
      "Snug " "cozy" (by decide) (by decide) (by decide)⟩

-- ------------------------------------------------------------------
-- C1 machinery, part 1: a space-free infix of a space-joined word list
-- lies inside one of the words.
-- ------------------------------------------------------------------

theorem prefix_append_cons {t x y : List Char} {c : Char} (hc : c ∉ t)
    (h : t <+: x ++ c :: y) : t <+: x := by
  rcases h with ⟨e, he⟩
  by_cases hl : t.length ≤ x.length
  · have h2 : t = (x ++ c :: y).take t.length := by
      have := congrArg (List.take t.length) he
      rwa [List.take_append_eq_append_take, List.take_length, Nat.sub_self,
        List.take_zero, List.append_nil] at this
    have h3 : t = x.take t.length := by
      rwa [List.take_append_eq_append_take, Nat.sub_eq_zero_of_le hl,
        List.take_zero, List.append_nil] at h2
    rw [h3]
    exact List.take_prefix _ _
  · exfalso
    push_neg at hl
    have htake : t.take (x.length + 1) = x ++ [c] := by
      have hL : (t ++ e).take (x.length + 1) = t.take (x.length + 1) := by
        rw [List.take_append_eq_append_take,
          Nat.sub_eq_zero_of_le (show x.length + 1 ≤ t.length from hl),
          List.take_zero, List.append_nil]
      have hone : x.length + 1 - x.length = 1 := by omega
      have hR : (x ++ c :: y).take (x.length + 1) = x ++ [c] := by
        rw [List.take_append_eq_append_take,
          List.take_of_length_le (Nat.le_succ _), hone]
        rfl
      rw [← hL, he, hR]
    apply hc
    have hcmem : c ∈ t.take (x.length + 1) := by
      rw [htake]
      exact List.mem_append_right _ (List.mem_singleton.mpr rfl)
    exact (List.take_sublist _ _).mem hcmem

theorem infix_append_cons {t : List Char} {c : Char} (hc : c ∉ t) :
    ∀ {x y : List Char}, t <:+: x ++ c :: y → t <:+: x ∨ t <:+: y := by
  intro x
  induction x with
  | nil =>
    intro y h
    rcases List.infix_cons_iff.mp h with hp | hi
    · have : t <+: ([] : List Char) := prefix_append_cons hc (by simpa using hp)
      rw [List.prefix_nil.mp this]
      exact Or.inl List.nil_infix
    · exact Or.inr hi
  | cons a x2 ih =>
    intro y h
    rw [List.cons_append] at h
    rcases List.infix_cons_iff.mp h with hp | hi
    · have : t <+: a :: x2 := prefix_append_cons hc (by rw [List.cons_append]; exact hp)
      exact Or.inl this.isInfix
    · rcases ih hi with h1 | h2
      · exact Or.inl (h1.trans (List.suffix_cons a x2).isInfix)
      · exact Or.inr h2

theorem infix_of_infix_joinWords {t : List Char} (htne : t ≠ [])
    (ht : ' ' ∉ t) :
    ∀ (ws : List String), (∀ w ∈ ws, ' ' ∉ w.data) →
    t <:+: (joinWords ws).data → ∃ w ∈ ws, t <:+: w.data := by
  intro ws
  induction ws with
  | nil =>
    intro _ h
    exact absurd (List.eq_nil_of_infix_nil h) htne
  | cons w ws ih =>
    cases ws with
    | nil =>
      intro _ h
      exact ⟨w, List.mem_cons_self _ _, h⟩
    | cons v rest =>
      intro hw h
      have hdata : (joinWords (w :: v :: rest)).data =
          w.data ++ ' ' :: (joinWords (v :: rest)).data := by
        show (w ++ " " ++ joinWords (v :: rest)).data = _
        simp [String.data_append]
      rw [hdata] at h
      rcases infix_append_cons ht h with h1 | h2
      · exact ⟨w, List.mem_cons_self _ _, h1⟩
      · rcases ih (fun u hu => hw u (List.mem_cons_of_mem _ hu)) h2 with ⟨u, hu, hinf⟩
        exact ⟨u, List.mem_cons_of_mem _ hu, hinf⟩

-- ------------------------------------------------------------------
-- C1 machinery, part 2: character classes of emitted queries.
-- ------------------------------------------------------------------

theorem goodWord_char {w : String} (hw : goodWord w = true) :
    ∀ c ∈ w.data, (('a' ≤ c ∧ c ≤ 'z') ∧ Char.toLower c = c) := by
  intro c hc
  unfold goodWord at hw
  rw [Bool.and_eq_true] at hw
  have := List.all_eq_true.mp hw.2 c hc
  simp only [Bool.and_eq_true, decide_eq_true_eq, beq_iff_eq] at this
  exact ⟨⟨this.1.1, this.1.2⟩, this.2⟩

theorem goodWord_ne_nil {w : String} (hw : goodWord w = true) : w.data ≠ [] := by
  unfold goodWord at hw
  rw [Bool.and_eq_true] at hw
  intro hc
  rw [Bool.not_eq_true'] at hw
  have := hw.1
  rw [hc] at this
  simp at this

theorem letter_not_ws {c : Char} (h : 'a' ≤ c ∧ c ≤ 'z') : isPyWs c = false := by
  have h1 : (c == ' ') = false :=
    beq_eq_false_iff_ne.mpr (fun e => absurd (e ▸ h.1) (by decide))
  have h2 : (c == '\t') = false :=
    beq_eq_false_iff_ne.mpr (fun e => absurd (e ▸ h.1) (by decide))
  have h3 : (c == '\n') = false :=
    beq_eq_false_iff_ne.mpr (fun e => absurd (e ▸ h.1) (by decide))
  have h4 : (c == '\r') = false :=
    beq_eq_false_iff_ne.mpr (fun e => absurd (e ▸ h.1) (by decide))
  have h5 : (c == '\x0b') = false :=
    beq_eq_false_iff_ne.mpr (fun e => absurd (e ▸ h.1) (by decide))
  have h6 : (c == '\x0c') = false :=
    beq_eq_false_iff_ne.mpr (fun e => absurd (e ▸ h.1) (by decide))
  simp [isPyWs, h1, h2, h3, h4, h5, h6]

theorem letter_not_punct {c : Char} (h : 'a' ≤ c ∧ c ≤ 'z') : isPunctCls c = false := by
  have h1 : (c == '.') = false :=
    beq_eq_false_iff_ne.mpr (fun e => absurd (e ▸ h.1) (by decide))
  have h2 : (c == ',') = false :=
    beq_eq_false_iff_ne.mpr (fun e => absurd (e ▸ h.1) (by decide))
  have h3 : (c == ';') = false :=
    beq_eq_false_iff_ne.mpr (fun e => absurd (e ▸ h.1) (by decide))
  have h4 : (c == ':') = false :=
    beq_eq_false_iff_ne.mpr (fun e => absurd (e ▸ h.1) (by decide))
  have h5 : (c == '!') = false :=
    beq_eq_false_iff_ne.mpr (fun e => absurd (e ▸ h.1) (by decide))
  have h6 : (c == '?') = false :=
    beq_eq_false_iff_ne.mpr (fun e => absurd (e ▸ h.1) (by decide))
  simp [isPunctCls, h1, h2, h3, h4, h5, h6]

theorem joinWords_data_cons_cons (w v : String) (rest : List String) :
    (joinWords (w :: v :: rest)).data =
      w.data ++ ' ' :: (joinWords (v :: rest)).data := by
  show (w ++ " " ++ joinWords (v :: rest)).data = _
  simp [String.data_append]

theorem joinWords_char {ws : List String} (h : ∀ w ∈ ws, goodWord w = true) :
    ∀ c ∈ (joinWords ws).data, (('a' ≤ c ∧ c ≤ 'z') ∧ Char.toLower c = c) ∨ c = ' ' := by
  induction ws with
  | nil => intro c hc; simp [joinWords] at hc
  | cons w ws ih =>
    cases ws with
    | nil =>
      intro c hc
      exact Or.inl (goodWord_char (h w (List.mem_cons_self _ _)) c hc)
    | cons v rest =>
      intro c hc
      rw [joinWords_data_cons_cons] at hc
      rcases List.mem_append.mp hc with h1 | h2
      · exact Or.inl (goodWord_char (h w (List.mem_cons_self _ _)) c h1)
      · rcases List.mem_cons.mp h2 with h3 | h4
        · exact Or.inr h3
        · exact ih (fun u hu => h u (List.mem_cons_of_mem _ hu)) c h4

theorem joinWords_data_ne {ws : List String} (hne : ws ≠ [])
    (h : ∀ w ∈ ws, goodWord w = true) : (joinWords ws).data ≠ [] := by
  cases ws with
  | nil => exact absurd rfl hne
  | cons w ws =>
    cases ws with
    | nil => exact goodWord_ne_nil (h w (List.mem_cons_self _ _))
    | cons v rest =>
      rw [joinWords_data_cons_cons]
      intro hc
      rcases List.append_eq_nil.mp hc with ⟨_, h2⟩
      simp at h2

theorem joinWords_head {ws : List String} (h : ∀ w ∈ ws, goodWord w = true) :
    ∀ c, (joinWords ws).data.head? = some c → ('a' ≤ c ∧ c ≤ 'z') := by
  cases ws with
  | nil => intro c hc; simp [joinWords] at hc
  | cons w ws =>
    cases ws with
    | nil =>
      intro c hc
      exact (goodWord_char (h w (List.mem_cons_self _ _)) c
        (List.mem_of_mem_head? (Option.mem_def.mpr hc))).1
    | cons v rest =>
      intro c hc
      rw [joinWords_data_cons_cons,
        List.head?_append_of_ne_nil _ (goodWord_ne_nil (h w (List.mem_cons_self _ _)))] at hc
      exact (goodWord_char (h w (List.mem_cons_self _ _)) c
        (List.mem_of_mem_head? (by rw [hc]; exact rfl))).1

theorem joinWords_getLast {ws : List String} (h : ∀ w ∈ ws, goodWord w = true) :
    ∀ c, (joinWords ws).data.getLast? = some c → ('a' ≤ c ∧ c ≤ 'z') := by
  induction ws with
  | nil => intro c hc; simp [joinWords] at hc
  | cons w ws ih =>
    cases ws with
    | nil =>
      intro c hc
      have : c ∈ w.data := by
        rw [List.getLast?_eq_head?_reverse] at hc
        exact List.mem_reverse.mp (List.mem_of_mem_head? (Option.mem_def.mpr hc))
      exact (goodWord_char (h w (List.mem_cons_self _ _)) c this).1
    | cons v rest =>
      intro c hc
      rw [joinWords_data_cons_cons] at hc
      have hjne : (joinWords (v :: rest)).data ≠ [] :=
        joinWords_data_ne (by simp) (fun u hu => h u (List.mem_cons_of_mem _ hu))
      rw [List.getLast?_append_of_ne_nil _ (by simp), ] at hc
      rw [show (' ' :: (joinWords (v :: rest)).data) = [' '] ++ (joinWords (v :: rest)).data from rfl,
        List.getLast?_append_of_ne_nil _ hjne] at hc
      exact ih (fun u hu => h u (List.mem_cons_of_mem _ hu)) c hc

-- ------------------------------------------------------------------
-- C1 machinery, part 3: each sanitize pass is the identity on a
-- lowercase, forbidden-free, single-spaced query string.
-- ------------------------------------------------------------------

theorem scanSub_id (m : List Char → Option (List Char)) (repl : List Char) :
    ∀ (fuel : Nat) (prevW : Bool) (s : List Char),
    (∀ s2, s2 <:+ s → m s2 = none) → scanSub m repl fuel prevW s = s := by
  intro fuel
  induction fuel with
  | zero =>
    intro _ s _
    cases s <;> rfl
  | succ fuel ih =>
    intro prevW s hm
    cases s with
    | nil => rfl
    | cons c rest =>
      show scanSub m repl (fuel + 1) prevW (c :: rest) = c :: rest
      have h0 : (if prevW then none else m (c :: rest)) = none := by
        split
        · rfl
        · exact hm _ (List.suffix_refl _)
      simp only [scanSub, h0]
      exact congrArg (c :: ·)
        (ih (isReWord c) rest (fun s2 hs2 => hm s2 (hs2.trans (List.suffix_cons c rest))))

theorem matchLitCI_decomp : ∀ (p s r : List Char), matchLitCI p s = some r →
    ∃ pre, s = pre ++ r ∧ pre.map Char.toLower = p := by
  intro p
  induction p with
  | nil =>
    intro s r h
    have : s = r := by
      simpa [matchLitCI] using h
    exact ⟨[], by simp [this], rfl⟩
  | cons pc ps ih =>
    intro s r h
    cases s with
    | nil => simp [matchLitCI] at h
    | cons c rest =>
      unfold matchLitCI at h
      split at h
      · next heq =>
        rcases ih rest r h with ⟨pre2, hre, hmap⟩
        exact ⟨c :: pre2, by rw [List.cons_append, ← hre], by simp [hmap, heq]⟩
      · simp at h

theorem matchWordsSeq_first : ∀ (w : List Char) (tws : List (List Char)) (s r : List Char),
    matchWordsSeq (w :: tws) s = some r →
    ∃ pre rest, s = pre ++ rest ∧ pre.map Char.toLower = w := by
  intro w tws s r h
  cases tws with
  | nil =>
    unfold matchWordsSeq at h
    rcases hm : matchLitCI w s with _ | r2
    · rw [hm] at h
      simp at h
    · rcases matchLitCI_decomp w s r2 hm with ⟨pre, hre, hmap⟩
      exact ⟨pre, r2, hre, hmap⟩
  | cons w2 ws2 =>
    unfold matchWordsSeq at h
    rcases hm : matchLitCI w s with _ | r2
    · rw [hm] at h
      simp at h
    · rcases matchLitCI_decomp w s r2 hm with ⟨pre, hre, hmap⟩
      exact ⟨pre, r2, hre, hmap⟩

theorem map_toLower_fixed {pre s : List Char}
    (hsub : ∀ c ∈ pre, c ∈ s) (hlc : ∀ c ∈ s, Char.toLower c = c) :
    pre.map Char.toLower = pre := by
  have : pre.map Char.toLower = pre.map id :=
    List.map_congr_left (fun c hc => hlc c (hsub c hc))
  rwa [List.map_id] at this

theorem applyTermSub_id (term : String) (s : List Char)
    (hlc : ∀ c ∈ s, Char.toLower c = c)
    (hsplit : splitWs term ≠ [])
    (hni : ¬ (firstWordStr term).data <:+: s) :
    applyTermSub term s = s := by
  unfold applyTermSub
  apply scanSub_id
  intro s2 hs2
  cases hsp : splitWs term with
  | nil => exact absurd hsp hsplit
  | cons t0 ts =>
    rw [List.map_cons]
    rcases hr : matchWordsSeq (t0.data :: ts.map String.data) s2 with _ | r
    · rfl
    · exfalso
      rcases matchWordsSeq_first t0.data (ts.map String.data) s2 r hr
        with ⟨pre, rest, hdec, hmap⟩
      have hpre : pre = t0.data := by
        rw [← hmap]
        exact (map_toLower_fixed
          (fun c hc => (hs2.sublist).mem (hdec ▸ List.mem_append_left rest hc)) hlc).symm
      apply hni
      have hfw : firstWordStr term = t0 := by
        unfold firstWordStr
        rw [hsp]
        rfl
      rw [hfw]
      have : t0.data <+: s2 := ⟨rest, by rw [← hpre, ← hdec]⟩
      exact this.isInfix.trans hs2.isInfix


theorem dropDash_suffix (l : List Char) : dropDash l <:+ l := by
  cases l with
  | nil => exact List.suffix_refl _
  | cons c t =>
    show (if c = '-' then t else c :: t) <:+ c :: t
    split
    · exact List.suffix_cons c t
    · exact List.suffix_refl _

theorem applyGiftCardSub_id (s : List Char)
    (hlc : ∀ c ∈ s, Char.toLower c = c)
    (hni : ¬ ("card".data <:+: s)) :
    applyGiftCardSub s = s := by
  unfold applyGiftCardSub
  apply scanSub_id
  intro s2 hs2
  rcases h1 : matchLitCI "gift".data s2 with _ | r1
  · simp [giftCardMatch, h1]
  · rcases h2 : matchLitCI "card".data (dropDash (r1.dropWhile isPyWs)) with _ | r4
    · simp [giftCardMatch, h1, h2]
    · exfalso
      apply hni
      have hr1sfx : r1 <:+ s2 := by
        rcases matchLitCI_decomp _ _ _ h1 with ⟨pre, hdec, _⟩
        exact ⟨pre, hdec.symm⟩
      have hr3 : dropDash (r1.dropWhile isPyWs) <:+ s2 :=
        ((dropDash_suffix _).trans (List.dropWhile_suffix isPyWs)).trans hr1sfx
      rcases matchLitCI_decomp _ _ _ h2 with ⟨pre, hdec, hmap⟩
      have hpre : pre = "card".data := by
        rw [← hmap]
        exact (map_toLower_fixed
          (fun c hc => (hr3.trans hs2).sublist.mem
            (hdec ▸ List.mem_append_left r4 hc)) hlc).symm
      have : "card".data <+: dropDash (r1.dropWhile isPyWs) := ⟨r4, by rw [← hpre, ← hdec]⟩
      exact this.isInfix.trans (hr3.trans hs2).isInfix

theorem collapseWsRuns_append_letters {u : List Char}
    (hu : ∀ c ∈ u, isPyWs c = false) :
    ∀ s, collapseWsRuns (u ++ s) = u ++ collapseWsRuns s := by
  induction u with
  | nil => intro s; simp
  | cons a u2 ih =>
    intro s
    have ha : isPyWs a = false := hu a (List.mem_cons_self _ _)
    have ihq : ∀ s, collapseWsRuns (u2 ++ s) = u2 ++ collapseWsRuns s :=
      ih (fun c hc => hu c (List.mem_cons_of_mem _ hc))
    rcases hrest : u2 ++ s with _ | ⟨b, tail⟩
    · rcases List.append_eq_nil.mp hrest with ⟨h1, h2⟩
      subst h1
      subst h2
      show collapseWsRuns [a] = [a]
      simp [collapseWsRuns, ha]
    · show collapseWsRuns (a :: (u2 ++ s)) = a :: (u2 ++ collapseWsRuns s)
      calc collapseWsRuns (a :: (u2 ++ s))
          = collapseWsRuns (a :: b :: tail) := by rw [hrest]
        _ = a :: collapseWsRuns (b :: tail) := by simp [collapseWsRuns, ha]
        _ = a :: collapseWsRuns (u2 ++ s) := by rw [← hrest]
        _ = a :: (u2 ++ collapseWsRuns s) := by rw [ihq]

theorem collapseWsRuns_join {ws : List String} (hgood : ∀ w ∈ ws, goodWord w = true) :
    collapseWsRuns (joinWords ws).data = (joinWords ws).data := by
  induction ws with
  | nil => rfl
  | cons w ws ih =>
    have hwletters : ∀ c ∈ w.data, isPyWs c = false := fun c hc =>
      letter_not_ws (goodWord_char (hgood w (List.mem_cons_self _ _)) c hc).1
    cases ws with
    | nil =>
      show collapseWsRuns w.data = w.data
      have := collapseWsRuns_append_letters hwletters []
      simpa [collapseWsRuns] using this
    | cons v rest =>
      have hgood2 : ∀ u ∈ v :: rest, goodWord u = true :=
        fun u hu => hgood u (List.mem_cons_of_mem _ hu)
      rw [joinWords_data_cons_cons, collapseWsRuns_append_letters hwletters]
      congr 1
      rcases hj : (joinWords (v :: rest)).data with _ | ⟨c0, jtail⟩
      · exact absurd hj (joinWords_data_ne (by simp) hgood2)
      · have hc0 : isPyWs c0 = false := by
          apply letter_not_ws
          exact joinWords_head hgood2 c0 (by rw [hj]; rfl)
        calc collapseWsRuns (' ' :: c0 :: jtail)
            = ' ' :: collapseWsRuns (c0 :: jtail) := by
              simp [collapseWsRuns, hc0]
          _ = ' ' :: c0 :: jtail := by rw [← hj, ih hgood2]

theorem pyStripChars_id {s : List Char}
    (hh : ∀ c, s.head? = some c → isPyWs c = false)
    (hl : ∀ c, s.getLast? = some c → isPyWs c = false) :
    pyStripChars s = s := by
  unfold pyStripChars
  have h1 : s.dropWhile isPyWs = s := by
    cases s with
    | nil => rfl
    | cons a t =>
      rw [List.dropWhile_cons, hh a rfl]
      simp
  rw [h1]
  have h2 : s.reverse.dropWhile isPyWs = s.reverse := by
    rcases hs : s.reverse with _ | ⟨a, t⟩
    · rfl
    · have ha : s.getLast? = some a := by
        rw [List.getLast?_eq_head?_reverse, hs]
        rfl
      rw [List.dropWhile_cons, hl a ha]
      simp
  rw [h2, List.reverse_reverse]

theorem fixPunct_nil (fuel : Nat) : fixPunct fuel [] = [] := by
  cases fuel <;> rfl

theorem fixPunct_id : ∀ (fuel : Nat) (s : List Char),
    (∀ c ∈ s, isPunctCls c = false) → fixPunct fuel s = s := by
  intro fuel
  induction fuel with
  | zero => intro s _; cases s <;> rfl
  | succ fuel ih =>
    intro s hs
    cases s with
    | nil => rfl
    | cons c rest =>
      show fixPunct (fuel + 1) (c :: rest) = c :: rest
      by_cases hw : isPyWs c = true
      · rcases hdp : rest.dropWhile isPyWs with _ | ⟨p, rr⟩
        · have htake : rest.takeWhile isPyWs = rest := by
            have := List.takeWhile_append_dropWhile isPyWs rest
            rwa [hdp, List.append_nil] at this
          simp only [fixPunct, hw, if_true, hdp, htake, fixPunct_nil, List.append_nil]
        · have hpmem : p ∈ rest := by
            apply (List.dropWhile_sublist isPyWs).mem
            rw [hdp]
            exact List.mem_cons_self _ _
          have hp : isPunctCls p = false := hs p (List.mem_cons_of_mem _ hpmem)
          have hrec : fixPunct fuel (rest.dropWhile isPyWs) = rest.dropWhile isPyWs := by
            apply ih
            intro x hx
            exact hs x (List.mem_cons_of_mem _ ((List.dropWhile_sublist isPyWs).mem hx))
          simp only [fixPunct, hw, if_true, hdp, hp, Bool.false_eq_true, if_false]
          rw [← hdp, hrec, List.cons_append, List.takeWhile_append_dropWhile]
      · have hb : isPyWs c = false := by
          rw [Bool.not_eq_true] at hw
          exact hw
        simp only [fixPunct, hb, Bool.false_eq_true, if_false]
        rw [ih rest (fun x hx => hs x (List.mem_cons_of_mem _ hx))]

-- ------------------------------------------------------------------
-- C1 machinery, part 4: every token the composer emits comes from the
-- normalised allow-list (plus the fixed suffix words).
-- ------------------------------------------------------------------

theorem addCands_mem {allowSet : List String} {maxT : Nat} :
    ∀ (cands acc : List String) (x : String),
    x ∈ (addCands allowSet maxT acc cands).1 → x ∈ acc ∨ x ∈ allowSet := by
  intro cands
  induction cands with
  | nil => intro acc x hx; exact Or.inl hx
  | cons cand rest ih =>
    intro acc x hx
    unfold addCands at hx
    split at hx
    · next hcond =>
      split at hx
      · rcases List.mem_append.mp hx with h1 | h2
        · exact Or.inl h1
        · rw [List.mem_singleton.mp h2]
          exact Or.inr hcond.1
      · rcases ih (acc ++ [qNormalise cand]) x hx with h1 | h2
        · rcases List.mem_append.mp h1 with h3 | h4
          · exact Or.inl h3
          · rw [List.mem_singleton.mp h4]
            exact Or.inr hcond.1
        · exact Or.inr h2
    · exact ih acc x hx

theorem addCands2_mem {allowSet : List String} {minT : Nat} :
    ∀ (cands acc : List String) (x : String),
    x ∈ (addCands2 allowSet minT acc cands).1 → x ∈ acc ∨ x ∈ allowSet := by
  intro cands
  induction cands with
  | nil => intro acc x hx; exact Or.inl hx
  | cons cand rest ih =>
    intro acc x hx
    unfold addCands2 at hx
    split at hx
    · next hcond =>
      split at hx
      · rcases List.mem_append.mp hx with h1 | h2
        · exact Or.inl h1
        · rw [List.mem_singleton.mp h2]
          exact Or.inr hcond.1
      · rcases ih (acc ++ [cand]) x hx with h1 | h2
        · rcases List.mem_append.mp h1 with h3 | h4
          · exact Or.inl h3
          · rw [List.mem_singleton.mp h4]
            exact Or.inr hcond.1
        · exact Or.inr h2
    · exact ih acc x hx

theorem selectPass1_mem {allowSet : List String}
    {synMap : List (String × List String)} {maxT : Nat} :
    ∀ (raws acc : List String) (x : String),
    x ∈ (selectPass1 allowSet synMap maxT acc raws).1 → x ∈ acc ∨ x ∈ allowSet := by
  intro raws
  induction raws with
  | nil => intro acc x hx; exact Or.inl hx
  | cons raw rest ih =>
    intro acc x hx
    unfold selectPass1 at hx
    split at hx
    · exact ih acc x hx
    · rcases hac : addCands allowSet maxT acc
          ((assocGetL synMap (qNormalise raw)).getD [] ++ splitWs (qNormalise raw) ++
            (if qNormalise raw ∈
                ((assocGetL synMap (qNormalise raw)).getD [] ++ splitWs (qNormalise raw))
              then [] else [qNormalise raw])) with ⟨acc2, b⟩
      rw [hac] at hx
      cases b with
      | true =>
        simp only [] at hx
        have := addCands_mem _ acc x (by rw [hac]; exact hx)
        exact this
      | false =>
        simp only [] at hx
        rcases ih acc2 x hx with h1 | h2
        · exact addCands_mem _ acc x (by rw [hac]; exact h1)
        · exact Or.inr h2

theorem selectPass2_mem {allowSet : List String}
    {synMap : List (String × List String)} {minT : Nat} :
    ∀ (raws acc : List String) (x : String),
    x ∈ (selectPass2 allowSet synMap minT acc raws).1 → x ∈ acc ∨ x ∈ allowSet := by
  intro raws
  induction raws with
  | nil => intro acc x hx; exact Or.inl hx
  | cons raw rest ih =>
    intro acc x hx
    unfold selectPass2 at hx
    split at hx
    · exact ih acc x hx
    · rcases hac : addCands2 allowSet minT acc
          ((assocGetL synMap (qNormalise raw)).getD []) with ⟨acc2, b⟩
      rw [hac] at hx
      cases b with
      | true =>
        simp only [] at hx
        exact addCands2_mem _ acc x (by rw [hac]; exact hx)
      | false =>
        simp only [] at hx
        rcases ih acc2 x hx with h1 | h2
        · exact addCands2_mem _ acc x (by rw [hac]; exact h1)
        · exact Or.inr h2

theorem selectAllowedTerms_mem {allowRaw : List String}
    {synSrc : List (String × List String)} {maxT minT : Nat}
    {tasteTop : List String} {x : String}
    (hx : x ∈ selectAllowedTerms allowRaw synSrc maxT minT tasteTop) :
    x ∈ (allowRaw.map qNormalise).filter (fun t => t ≠ "") := by
  unfold selectAllowedTerms at hx
  rcases hp1 : selectPass1 ((allowRaw.map qNormalise).filter (fun t => t ≠ ""))
      (buildSynMap synSrc) maxT [] tasteTop with ⟨tokens, b⟩
  rw [hp1] at hx
  cases b with
  | true =>
    simp only [] at hx
    rcases selectPass1_mem tasteTop [] x (by rw [hp1]; exact hx) with h1 | h2
    · exact absurd h1 (List.not_mem_nil x)
    · exact h2
  | false =>
    simp only [] at hx
    split at hx
    · rcases selectPass1_mem tasteTop [] x (by rw [hp1]; exact hx) with h1 | h2
      · exact absurd h1 (List.not_mem_nil x)
      · exact h2
    · rcases selectPass2_mem tasteTop tokens x hx with h1 | h2
      · rcases selectPass1_mem tasteTop [] x (by rw [hp1]; exact h1) with h3 | h4
        · exact absurd h3 (List.not_mem_nil x)
        · exact h4
      · exact h2

theorem composerDedupe_subset :
    ∀ (seen l : List String) (x : String), x ∈ composerDedupeAux seen l → x ∈ l := by
  intro seen l
  induction l generalizing seen with
  | nil => intro x hx; exact absurd hx (List.not_mem_nil x)
  | cons item rest ih =>
    intro x hx
    unfold composerDedupeAux at hx
    split at hx
    · exact List.mem_cons_of_mem _ (ih _ x hx)
    · rcases List.mem_cons.mp hx with h1 | h2
      · rw [h1]; exact List.mem_cons_self _ _
      · exact List.mem_cons_of_mem _ (ih _ x h2)

-- ------------------------------------------------------------------
-- C1 machinery, part 5: finite word-level checks, discharged by decide.
-- ------------------------------------------------------------------

theorem safeWords_good : ∀ w ∈ safeWords, goodWord w = true := by decide

theorem checkTerms_not_in_safeWords :
    ∀ t ∈ checkTerms, ∀ w ∈ safeWords, ¬ (t.data <:+: w.data) := by decide

theorem checkTerms_shape : ∀ t ∈ checkTerms, t.data ≠ [] ∧ ' ' ∉ t.data := by decide

theorem forbiddenTerms_words :
    ∀ term ∈ forbiddenTerms, splitWs term ≠ [] ∧ firstWordStr term ∈ checkTerms := by
  decide

theorem forbiddenTerms_split :
    ∀ t ∈ forbiddenTerms, t ∈ checkTerms ∨ "for".data <+: t.data := by decide

-- ------------------------------------------------------------------
-- C1 machinery, part 6: sanitize_query is the identity on any query
-- joined from safe words, which is forbidden-free.
-- ------------------------------------------------------------------

theorem safeWords_space_free {ws : List String} (hws : ∀ w ∈ ws, w ∈ safeWords) :
    ∀ w ∈ ws, ' ' ∉ w.data := by
  intro w hw hsp
  exact absurd (goodWord_char (safeWords_good w (hws w hw)) ' ' hsp).1.1 (by decide)

theorem joinWords_no_check {ws : List String} (hws : ∀ w ∈ ws, w ∈ safeWords) :
    ∀ t ∈ checkTerms, ¬ t.data <:+: (joinWords ws).data := by
  intro t ht hinf
  have hts := checkTerms_shape t ht
  rcases infix_of_infix_joinWords hts.1 hts.2 ws (safeWords_space_free hws) hinf
    with ⟨w, hw, hinfw⟩
  exact checkTerms_not_in_safeWords t ht w (hws w hw) hinfw

theorem sanitizeQuery_join_id {ws : List String}
    (hws : ∀ w ∈ ws, w ∈ safeWords) :
    sanitizeQuery (joinWords ws) = joinWords ws := by
  by_cases hjw : joinWords ws = ""
  · rw [hjw]
    rfl
  · have hgoodall : ∀ w ∈ ws, goodWord w = true :=
      fun w hw => safeWords_good w (hws w hw)
    have hlc : ∀ c ∈ (joinWords ws).data, Char.toLower c = c := by
      intro c hc
      rcases joinWords_char hgoodall c hc with ⟨_, h2⟩ | hsp
      · exact h2
      · rw [hsp]
        decide
    have hni : ∀ t ∈ checkTerms, ¬ t.data <:+: (joinWords ws).data :=
      joinWords_no_check hws
    unfold sanitizeQuery
    rw [if_neg hjw]
    have hfold : ∀ ts : List String, (∀ term ∈ ts, term ∈ forbiddenTerms) →
        ts.foldl (fun s term => applyTermSub term s) (joinWords ws).data =
          (joinWords ws).data := by
      intro ts hts
      induction ts with
      | nil => rfl
      | cons term ts2 ih2 =>
        have hterm := hts term (List.mem_cons_self _ _)
        have h4 := forbiddenTerms_words term hterm
        rw [List.foldl_cons,
          applyTermSub_id term _ hlc h4.1 (hni _ h4.2)]
        exact ih2 (fun u hu => hts u (List.mem_cons_of_mem _ hu))
    rw [hfold _ (fun term hterm => mem_sortLe.mp hterm)]
    rw [applyGiftCardSub_id _ hlc (hni "card" (by decide))]
    rw [collapseWsRuns_join hgoodall]
    rw [pyStripChars_id
      (fun c hc => letter_not_ws (joinWords_head hgoodall c hc))
      (fun c hc => letter_not_ws (joinWords_getLast hgoodall c hc))]
    rw [fixPunct_id _ _ (fun c hc => by
      rcases joinWords_char hgoodall c hc with ⟨h1, _⟩ | hsp
      · exact letter_not_punct h1
      · rw [hsp]
        decide)]

-- ------------------------------------------------------------------
-- C1: the forbidden-term safety invariant.
-- ------------------------------------------------------------------

/-- C1: (a) any tag whose stripped-lowercased form is in the builder's
forbidden set canonicalises to `None` (for every manifest state, hence for
every raw tag literally in a normalised forbidden set); (b) no forbidden
term occurs - even as a bare substring - in any query the default composer
emits after `sanitize_query`; (c) on the input tags
`["girl", "retro", "vintage"]` the retained tokens are exactly
`["retro", "vintage"]`. -/
theorem forbiddenTerm_safety :
    (∀ (qb : QB) (tag : String), stripLower tag ∈ qb.forbidden →
      canonicalise qb tag = none) ∧
    (∀ (tasteTop : List String), ∀ t ∈ forbiddenTerms,
      ¬ (t.data <:+: (composeDefault tasteTop).query.data)) ∧
    (composeDefault ["girl", "retro", "vintage"]).tokens = ["retro", "vintage"] := by
  refine ⟨?_, ?_, by decide⟩
  · intro qb tag h
    unfold canonicalise
    rw [if_pos (Or.inr h)]
  · intro tasteTop t ht hinf
    have hws : ∀ w ∈ composerDedupe
        (selectAllowedTerms defaultAllowlist defaultSynonyms 4 2 tasteTop ++
          ["gift", "ideas"]), w ∈ safeWords := by
      intro w hw
      rcases List.mem_append.mp (composerDedupe_subset [] _ w hw) with h1 | h2
      · exact List.mem_append_left _ (selectAllowedTerms_mem h1)
      · exact List.mem_append_right _ h2
    have hq : (composeDefault tasteTop).query =
        joinWords (composerDedupe
          (selectAllowedTerms defaultAllowlist defaultSynonyms 4 2 tasteTop ++
            ["gift", "ideas"])) := sanitizeQuery_join_id hws
    rw [hq] at hinf
    rcases forbiddenTerms_split t ht with hck | hfor
    · exact joinWords_no_check hws t hck hinf
    · exact joinWords_no_check hws "for" (by decide) (hfor.isInfix.trans hinf)

/-- C1 witness: a forbidden tag is dropped by the canonicaliser, and the
forbidden term "girl" does not occur in the query composed from
`["girl", "retro", "vintage"]`. -/
theorem forbiddenTerm_safety_witness :
    (stripLower "girl" ∈ ["girl", "boy"] ∧
      canonicalise ⟨["outdoor"], ["girl", "boy"], fun _ => none⟩ "girl" = none) ∧
    ("girl" ∈ forbiddenTerms ∧
      ¬ ("girl".data <:+:
        (composeDefault ["girl", "retro", "vintage"]).query.data)) :=
  ⟨⟨by decide, forbiddenTerm_safety.1 ⟨["outdoor"], ["girl", "boy"], fun _ => none⟩
      "girl" (by decide)⟩,
   ⟨by decide, forbiddenTerm_safety.2.1 ["girl", "retro", "vintage"] "girl" (by decide)⟩⟩
